import Mathlib

/-!
Verification of the `gitignored` rule-classification and evaluation engine.

The Rust source (`src/lib.rs`) is embedded shallowly:

* strings are embedded as `List Char` (Rust `&str` / `String`);
* functions that can panic (`unwrap` on `None`, or on a glob
  `PatternError`) return `Option`, with `none` standing for a panic;
* the evaluator instance `Gitignore { root, options }` is a record, and the
  methods that mutate `self.options` are embedded in explicit state-passing
  style, returning the new record next to their result.

The external `glob` crate is not part of the repository; it is modelled from
the specification (see `tokenize` / `globMatchF` below).
-/

namespace Gitignored

/-- Unicode `White_Space` code points, as used by Rust's `char::is_whitespace`. -/
def isRustWhitespace (c : Char) : Bool :=
  c = ' ' || c = '\t' || c = '\n' || (9 ≤ c.toNat && c.toNat ≤ 13) ||
  c.toNat = 0x85 || c.toNat = 0xA0 || c.toNat = 0x1680 ||
  (0x2000 ≤ c.toNat && c.toNat ≤ 0x200A) ||
  c.toNat = 0x2028 || c.toNat = 0x2029 || c.toNat = 0x202F ||
  c.toNat = 0x205F || c.toNat = 0x3000

/-- `fn remove_whitespace(s: &str) -> String` from the source:
keeps exactly the characters that are not whitespace. -/
def removeWhitespace (s : List Char) : List Char :=
  s.filter (fun c => !isRustWhitespace c)

/-- `fn negate(string: &str) -> String` from the source: prepends `!`. -/
def negate (s : List Char) : List Char := '!' :: s

/-- Rust's `string.split("/")` for the one-character separator `/`:
splits into (possibly empty) segments, keeping empty segments. -/
def splitOnSlash : List Char → List (List Char)
  | [] => [[]]
  | c :: rest =>
    if c = '/' then [] :: splitOnSlash rest
    else
      match splitOnSlash rest with
      | [] => [[c]]
      | s :: ss => (c :: s) :: ss

/-- `fn has_no_middle_separators(string: &str) -> bool` from the source:
splitting on `/` yields at most one non-empty segment. -/
def hasNoMiddleSeparators (s : List Char) : Bool :=
  ((splitOnSlash s).filter (fun seg => !seg.isEmpty)).length ≤ 1

/-- The `\.[^\*]+$` tail of the `has_extension` regex: a literal `.`
followed by a non-empty run of characters none of which is `*`, reaching
the end of the string. -/
def extTail : List Char → Bool
  | '.' :: ext => !ext.isEmpty && ext.all (fun x => !(x = '*'))
  | _ => false

/-- The regex `\*\.[^\*]+$` used by `Pattern::new` (`has_extension`): at
some position the string has a literal `*` whose remainder is `.` followed
by a non-empty, `*`-free run reaching the end. -/
def hasExtension : List Char → Bool
  | [] => false
  | c :: rest => (decide (c = '*') && extTail rest) || hasExtension rest

/-- `enum Match` from the source. -/
inductive Match where
  | Anywhere
  | Relative
deriving DecidableEq, Repr

/-- `enum PathKind` from the source. -/
inductive PathKind where
  | Dir
  | File
  | Both
deriving DecidableEq, Repr

/-- `struct Pattern` from the source. -/
structure Pattern where
  string : List Char
  matchType : Match
  pathKind : PathKind
  negated : Bool
deriving DecidableEq, Repr

/-- `Pattern::new` from the source.  `first_char` unwraps `chars().nth(0)`,
which panics when the whitespace-stripped, `!`-stripped rule text is empty;
that panic is modelled as `none`.  (The `starts_with("**")` test
short-circuits the `&&` chain, but an empty string never starts with `**`,
so emptiness always reaches `first_char`.) -/
def Pattern.new (glob : List Char) : Option Pattern :=
  let negated := List.isPrefixOf ['!'] glob
  let withoutNeg := if negated then glob.drop 1 else glob
  let normalized := removeWhitespace withoutNeg
  let pathKind :=
    if hasExtension normalized then PathKind.File
    else if normalized.getLast? = some '/' then PathKind.Dir
    else PathKind.Both
  if List.isPrefixOf ['*', '*'] normalized then
    some ⟨normalized, Match.Relative, pathKind, negated⟩
  else
    match normalized with
    | [] => none
    | c :: _ =>
      let matchType :=
        if c ≠ '/' ∧ hasNoMiddleSeparators normalized then Match.Anywhere
        else Match.Relative
      some ⟨normalized, matchType, pathKind, negated⟩

/-- The two pushes per loop iteration of `Pattern::get_parents`: a joined
ancestor that already starts with `/` is pushed alone, otherwise it is
pushed both with a prepended `/` and as is. -/
def ancVariants (joined : List Char) : List (List Char) :=
  if List.isPrefixOf ['/'] joined then [joined]
  else [('/' :: joined), joined]

/-- The loop body of `Pattern::get_parents`, driven by a fuel counter that
bounds the number of `segments.pop()` steps (the Rust loop runs while
`segments.len() > 1`, so `segments.length` fuel always suffices). -/
def getParentsGo : Nat → List (List Char) → List (List Char)
  | 0, _ => []
  | n + 1, segs =>
    if segs.length ≤ 1 then []
    else
      ancVariants (List.intercalate ['/'] segs.dropLast ++ ['/']) ++
        getParentsGo n segs.dropLast

/-- `Pattern::get_parents` from the source: every ancestor directory prefix
of the pattern text, each ending in `/`, duplicated with a leading `/` when
it does not already start with one, then filtered for non-emptiness. -/
def Pattern.getParents (p : Pattern) : List (List Char) :=
  let segments := splitOnSlash p.string
  (getParentsGo segments.length segments).filter (fun q => !q.isEmpty)

/-! ## The external glob primitive, modelled from the spec

Modelled from the spec: the repository delegates wildcard matching to the
external `glob` crate, which is out of scope for the source.  Section 6 of
the spec specifies the required capability as
`matches(expression, path, options) -> bool` supporting `*` (any run of
characters, optionally not crossing `/` per option), `**` (any number of
path segments) and literal segments, with an option set
`{requireLiteralSeparator, caseSensitive}`; failing to compile an
expression is a configuration error, not a panic.  Accordingly `tokenize`
compiles an expression into tokens — requiring `**` to stand as a whole
path segment followed by `/`, and treating character-class expressions
(anything with `[`, which is outside the required capability) as failing
to compile — and `globMatchF` is a fuel-driven matcher for the three
supported constructs.
-/

/-- `MatchOptions` of the external glob primitive, modelled from the spec
(§6): separator strictness and case sensitivity. -/
structure MatchOptions where
  requireLiteralSeparator : Bool
  caseSensitive : Bool
deriving DecidableEq, Repr

/-- `MatchOptions::new()` defaults: case-sensitive, `*` may cross `/`. -/
def MatchOptions.new : MatchOptions := ⟨false, true⟩

/-- Tokens of a compiled glob expression: a literal character, `*`, `**/`
(any number of whole path segments), and an auxiliary token `recInner`
used by the matcher for the "at least one more segment" state of `**/`. -/
inductive Tok where
  | lit (c : Char)
  | star
  | recSep
  | recInner
deriving DecidableEq, Repr

/-- Modelled from the spec: compiling a glob expression (the fallible half
of the external primitive).  `**` must form a whole path segment and be
followed by `/`; `[` begins a character-class expression, which is outside
the capability required by spec §6 and therefore fails to compile
(the ConfigurationError case of §7).  The `Bool` argument tracks whether
the scanner is at the start of a path segment. -/
def tokenize : List Char → Bool → Option (List Tok)
  | [], _ => some []
  | c :: rest, atStart =>
    if c = '*' then
      match rest with
      | [] => some [Tok.star]
      | c2 :: rest2 =>
        if c2 = '*' then
          if atStart then
            match rest2 with
            | [] => none
            | c3 :: rest3 =>
              if c3 = '/' then (tokenize rest3 true).map (Tok.recSep :: ·)
              else none
          else none
        else (tokenize (c2 :: rest2) false).map (Tok.star :: ·)
    else if c = '[' then none
    else (tokenize rest (decide (c = '/'))).map (Tok.lit c :: ·)

/-- Character comparison under the option set: literal characters compare
case-insensitively when `caseSensitive` is off. -/
def charEq (o : MatchOptions) (c d : Char) : Bool :=
  if o.caseSensitive then c = d else c.toLower = d.toLower

/-- Weight of a token list, used to size the matcher's fuel. -/
def toksWeight : List Tok → Nat
  | [] => 0
  | Tok.recSep :: ts => 2 + toksWeight ts
  | _ :: ts => 1 + toksWeight ts

/-- Modelled from the spec: the matching half of the external glob
primitive, on compiled tokens.  `lit` consumes one equal character; `star`
consumes any run of characters, refusing `/` when
`requireLiteralSeparator` is set; `recSep` (`**/`) consumes any number of
whole path segments, with `recInner` the state in which at least the rest
of one segment and its `/` must still be consumed.  The fuel argument
strictly decreases at every step; `globMatchW` supplies enough fuel for
the answer to be exact (see `globMatchF_fuel_irrelevant`). -/
def globMatchF : Nat → List Tok → List Char → MatchOptions → Bool
  | 0, _, _, _ => false
  | _ + 1, [], [], _ => true
  | _ + 1, [], _ :: _, _ => false
  | _ + 1, Tok.lit _ :: _, [], _ => false
  | n + 1, Tok.lit c :: ts, d :: ds, o => charEq o c d && globMatchF n ts ds o
  | n + 1, Tok.star :: ts, [], o => globMatchF n ts [] o
  | n + 1, Tok.star :: ts, d :: ds, o =>
    globMatchF n ts (d :: ds) o ||
    (!(o.requireLiteralSeparator && d = '/') && globMatchF n (Tok.star :: ts) ds o)
  | n + 1, Tok.recSep :: ts, s, o =>
    globMatchF n ts s o || globMatchF n (Tok.recInner :: ts) s o
  | _ + 1, Tok.recInner :: _, [], _ => false
  | n + 1, Tok.recInner :: ts, d :: ds, o =>
    if d = '/' then globMatchF n ts ds o || globMatchF n (Tok.recInner :: ts) ds o
    else globMatchF n (Tok.recInner :: ts) ds o

/-- The matcher with enough fuel: `matches(expression, path, options)`. -/
def globMatchW (ts : List Tok) (s : List Char) (o : MatchOptions) : Bool :=
  globMatchF (s.length + toksWeight ts + 1) ts s o

/-! ## The evaluator `Gitignore` -/

/-- `struct Gitignore` from the source: a root path and the (mutable, in
the source) match options. -/
structure Gitignore where
  root : List Char
  options : MatchOptions
deriving DecidableEq, Repr

/-- The options update `self.options.require_literal_separator = b`. -/
def setRls (g : Gitignore) (b : Bool) : Gitignore :=
  { g with options := { g.options with requireLiteralSeparator := b } }

/-- The string computed by `Gitignore::make_absolute` (which also sets
`require_literal_separator = true`; the update is applied at the call
sites in `makeFullPath`). -/
def makeAbsoluteStr (root p : List Char) : List Char :=
  if List.isPrefixOf ['*', '*', '/'] p then p
  else if List.isPrefixOf ['/'] p then root ++ p
  else root ++ '/' :: p

/-- The string computed by `Gitignore::make_absolute_anywhere` (which also
sets `require_literal_separator = false`): a trailing `*` is dropped and
`**/` is prepended. -/
def makeAbsoluteAnywhereStr (p : List Char) : List Char :=
  let unformatted := if p.getLast? = some '*' then p.dropLast else p
  '*' :: '*' :: '/' :: unformatted

/-- The string computed by `Gitignore::make_full_path` for a given
`(path_kind, match_type)` pair and source string `from`. -/
def makeFullPathStr (root : List Char) (k : PathKind) (m : Match) (fromStr : List Char) : List Char :=
  match k, m with
  | PathKind.Both, Match.Anywhere => makeAbsoluteAnywhereStr fromStr ++ ['*']
  | PathKind.File, Match.Anywhere => makeAbsoluteAnywhereStr fromStr
  | PathKind.Dir, Match.Anywhere => makeAbsoluteAnywhereStr fromStr ++ ['*', '*', '/', '*']
  | PathKind.Both, Match.Relative => makeAbsoluteStr root fromStr ++ ['*']
  | PathKind.File, Match.Relative => makeAbsoluteStr root fromStr
  | PathKind.Dir, Match.Relative => makeAbsoluteStr root fromStr ++ ['*', '*', '/', '*']

/-- The `require_literal_separator` value `make_full_path` leaves behind:
the `Anywhere` arms call `make_absolute_anywhere` (sets `false`), the
`Relative` arms call `make_absolute` (sets `true`). -/
def mfpFlag : Match → Bool
  | Match.Anywhere => false
  | Match.Relative => true

/-- `Gitignore::make_full_path` from the source, as result string plus the
state it leaves behind. -/
def makeFullPath (g : Gitignore) (glob : Pattern) (fromStr : List Char) :
    List Char × Gitignore :=
  (makeFullPathStr g.root glob.pathKind glob.matchType fromStr,
   setRls g (mfpFlag glob.matchType))

/-- `Gitignore::ignores_path` from the source: expand the pattern, compile
it (`PatternMatcher::new(..).unwrap()` — a compile failure is the panic
`none`), match the target with the instance options, and negate the match
for a negated pattern. -/
def ignoresPath (g : Gitignore) (glob : Pattern) (target : List Char) :
    Option Bool × Gitignore :=
  let fullAndState := makeFullPath g glob glob.string
  match tokenize fullAndState.1 true with
  | none => (none, fullAndState.2)
  | some toks =>
    let m := globMatchW toks target fullAndState.2.options
    (some (if glob.negated then !m else m), fullAndState.2)

/-- The loop body of `Gitignore::find_ignored_dirs`: classify each line; a
non-negated `Dir`- or `Both`-kind pattern whose negated parents (with or
without a leading `/`) do not occur verbatim in `lines` contributes its
text to the ignored-directory list. -/
def findIgnoredDirsGo (allLines : List (List Char)) :
    List (List Char) → Option (List (List Char))
  | [] => some []
  | line :: rest =>
    match Pattern.new line with
    | none => none
    | some glob =>
      let parents := (Pattern.getParents glob).map negate
      let hasNegatedParents := parents.any (fun p => allLines.contains p)
      match findIgnoredDirsGo allLines rest with
      | none => none
      | some tail =>
        some (match glob.pathKind with
          | PathKind.Both | PathKind.Dir =>
            if !glob.negated && !hasNegatedParents then glob.string :: tail else tail
          | PathKind.File => tail)

/-- `Gitignore::find_ignored_dirs` from the source. -/
def findIgnoredDirs (lines : List (List Char)) : Option (List (List Char)) :=
  findIgnoredDirsGo lines lines

/-- The `ignored_dirs.iter().any(..)` check inside `Gitignore::ignores`:
each ignored directory is expanded with the *current* pattern's kind and
anchor (`self.make_full_path(&glob, dir)`, which also updates the options
state), compiled (`unwrap` — `none` on failure), and matched against the
target with `matches_path`, i.e. with default `MatchOptions`. -/
def anyIgnoredParent (g : Gitignore) (glob : Pattern) (dirs : List (List Char))
    (target : List Char) : Option Bool × Gitignore :=
  match dirs with
  | [] => (some false, g)
  | d :: rest =>
    let longAndState := makeFullPath g glob d
    match tokenize longAndState.1 true with
    | none => (none, longAndState.2)
    | some toks =>
      if globMatchW toks target MatchOptions.new then (some true, longAndState.2)
      else anyIgnoredParent longAndState.2 glob rest target

/-- The per-line loop of `Gitignore::ignores`: for each line, classify it,
return `true` early if any ignored directory (expanded with this line's
kind and anchor) matches the target, and otherwise overwrite the running
verdict with `ignores_path`'s result for this line. -/
def ignoresGo (dirs : List (List Char)) (target : List Char) :
    Gitignore → List (List Char) → Bool → Option Bool × Gitignore
  | g, [], acc => (some acc, g)
  | g, line :: rest, acc =>
    match Pattern.new line with
    | none => (none, g)
    | some glob =>
      match anyIgnoredParent g glob dirs target with
      | (none, g') => (none, g')
      | (some true, g') => (some true, g')
      | (some false, g') =>
        match ignoresPath g' glob target with
        | (none, g'') => (none, g'')
        | (some b, g'') => ignoresGo dirs target g'' rest b

/-- `Gitignore::ignores` from the source: compute the ignored-directory
list, then run the per-line loop with verdict initialized to `false`. -/
def Gitignore.ignores (g : Gitignore) (lines : List (List Char))
    (target : List Char) : Option Bool × Gitignore :=
  match findIgnoredDirs lines with
  | none => (none, g)
  | some dirs => ignoresGo dirs target g lines false

/-- `evaluate(rules, root, target)` of the spec: `Gitignore::ignores` on an
instance with the given root and default options (as built by
`Gitignore::default()`, whose `require_literal_separator = false` and
whose remaining options are the `MatchOptions::new()` defaults).  Strings
are embedded as `List Char` throughout. -/
def evaluate (rules : List (List Char)) (root target : List Char) : Option Bool :=
  (Gitignore.ignores ⟨root, MatchOptions.new⟩ rules target).1

/-! ## Claim-side definitions

The next definitions follow the words of the specification (not the
source); each is compared against the source-derived functions above by
the claim theorems. -/

/-- The pure value of `ignores_path` for a classified pattern, as a
function of the instance root and case sensitivity only (the
`require_literal_separator` flag is overwritten by `make_full_path`
before the options are read). -/
def ipVal (root : List Char) (cs : Bool) (glob : Pattern) (target : List Char) :
    Option Bool :=
  match tokenize (makeFullPathStr root glob.pathKind glob.matchType glob.string) true with
  | none => none
  | some toks =>
    let m := globMatchW toks target ⟨mfpFlag glob.matchType, cs⟩
    some (if glob.negated then !m else m)

/-- One Pass-2 test of `Gitignore::ignores`: the ignored directory `d`
expanded with pattern `glob`'s kind and anchor, compiled (`none` = the
`unwrap` panic), and matched against the target with default options. -/
def pass2Check (root : List Char) (glob : Pattern) (d target : List Char) :
    Option Bool :=
  match tokenize (makeFullPathStr root glob.pathKind glob.matchType d) true with
  | none => none
  | some toks => some (globMatchW toks target MatchOptions.new)

/-- The loop of `find_ignored_dirs`, additionally recording each blocked
directory's own anchor (the `match_type` of the pattern that contributed
it); the spec's Pass 2 speaks of expanding a blocked entry "using its
recorded anchor". -/
def findIgnoredDirsAncGo (allLines : List (List Char)) :
    List (List Char) → Option (List (List Char × Match))
  | [] => some []
  | line :: rest =>
    match Pattern.new line with
    | none => none
    | some glob =>
      let parents := (Pattern.getParents glob).map negate
      let hasNegatedParents := parents.any (fun p => allLines.contains p)
      match findIgnoredDirsAncGo allLines rest with
      | none => none
      | some tail =>
        some (match glob.pathKind with
          | PathKind.Both | PathKind.Dir =>
            if !glob.negated && !hasNegatedParents then
              (glob.string, glob.matchType) :: tail
            else tail
          | PathKind.File => tail)

/-- The blocked-directory set of Pass 1, with each entry's recorded anchor. -/
def findIgnoredDirsAnc (lines : List (List Char)) :
    Option (List (List Char × Match)) :=
  findIgnoredDirsAncGo lines lines

/-- The part of `make_full_path`'s output that precedes the kind-dependent
suffix: `make_absolute_anywhere`'s string for an `Anywhere` pattern,
`make_absolute`'s string for a `Relative` one. -/
def expansionBase (root : List Char) (anc : Match) (d : List Char) : List Char :=
  match anc with
  | Match.Anywhere => makeAbsoluteAnywhereStr d
  | Match.Relative => makeAbsoluteStr root d

/-- The spec's Pass-2 containment test: the blocked directory `d` is
expanded as `Directory` kind using its recorded anchor `anc`, and the
expansion is matched against the target (with the default options Pass 2
uses); an expansion that fails to compile contains nothing. -/
def specDirContains (root d : List Char) (anc : Match) (target : List Char) : Bool :=
  match tokenize (makeFullPathStr root PathKind.Dir anc d) true with
  | none => false
  | some toks => globMatchW toks target MatchOptions.new

/-- The ordered scan exactly as claim C2 words it: the verdict starts at
`false`, a rule whose expansion matches the target sets the verdict to
the negation of its negated flag, and a rule whose expansion does not
match leaves the verdict unchanged (rules that do not classify or whose
expansion does not compile are skipped, per spec §7). -/
def specScanStated (root target : List Char) (rules : List (List Char)) : Bool :=
  rules.foldl
    (fun v line =>
      match Pattern.new line with
      | none => v
      | some glob =>
        match tokenize (makeFullPathStr root glob.pathKind glob.matchType glob.string) true with
        | none => v
        | some toks =>
          if globMatchW toks target ⟨mfpFlag glob.matchType, true⟩ then !glob.negated
          else v)
    false

/-- The scan as the code actually performs it (the amended claim C2):
every rule that classifies overwrites the running verdict with its own
`ignores_path` value — matching or not — and a rule that fails to
classify, or whose expansion fails to compile, panics (`none`). -/
def specScanOverwrite (root target : List Char) : List (List Char) → Bool → Option Bool
  | [], acc => some acc
  | line :: rest, acc =>
    match Pattern.new line with
    | none => none
    | some glob =>
      match ipVal root true glob target with
      | none => none
      | some b => specScanOverwrite root target rest b

/-- The pattern's "own directory form" as claim C3 words it: the text
itself when it already ends in `/`, otherwise the text with `/` appended. -/
def specDirForm (s : List Char) : List Char :=
  if s.getLast? = some '/' then s else s ++ ['/']

/-- The negated-ancestor forms exactly as claim C3 words them: `!`
prepended to each ancestor directory prefix of the pattern's path,
including the pattern's own directory form, each taken both with and
without a leading `/`. -/
def specStatedForms (s : List Char) : List (List Char) :=
  let segs := (splitOnSlash (specDirForm s)).dropLast
  ((List.range segs.length).map (fun k =>
    let j := List.intercalate ['/'] (segs.take (k + 1)) ++ ['/']
    let w := if List.isPrefixOf ['/'] j then j.drop 1 else j
    [negate ('/' :: w), negate w])).flatten

/-- The blocked-set membership condition exactly as claim C3 states it
for one rule: its classified pattern has kind `Directory` or `Both`, is
not negated, and none of its stated negated-ancestor forms occurs
verbatim in the rule list. -/
def specStatedBlockedCond (rules : List (List Char)) (rule : List Char) : Bool :=
  match Pattern.new rule with
  | none => false
  | some g =>
    (match g.pathKind with
     | PathKind.Dir | PathKind.Both => true
     | PathKind.File => false) &&
    !g.negated &&
    (specStatedForms g.string).all (fun f => !rules.contains f)

/-- The negated-ancestor forms of the amended claim C3: for each proper
ancestor directory prefix of the pattern's `/`-split path (the joins of
the first `k` segments, `1 ≤ k ≤ segments − 1`, each ending in `/`; for a
pattern ending in `/` this includes its own directory form, for a
slash-free pattern there are none), the form is taken as is when it
already starts with `/` and otherwise both with and without a leading
`/`, and `!` is prepended. -/
def specAmendedForms (s : List Char) : List (List Char) :=
  let segs := splitOnSlash s
  (((List.range (segs.length - 1)).map (fun k =>
    ancVariants (List.intercalate ['/'] (segs.take (k + 1)) ++ ['/']))).flatten).map negate

/-- The property expressed by the source regex `\*\.[^\*]+$` as a
proposition: the text decomposes as anything, then a literal `*`, then
`.`, then a non-empty extension containing no `*`, extending to the end. -/
def EndsInStarDotExt (s : List Char) : Prop :=
  ∃ a b, s = a ++ '*' :: '.' :: b ∧ b ≠ [] ∧ '*' ∉ b

/-! ## Concrete inputs used by the claim theorems -/

/-- The character list of `/root`. -/
def cRoot : List Char := ['/', 'r', 'o', 'o', 't']

/-- The character list of `/root/lib/deep/include.js`. -/
def tgtLibDeepInclude : List Char :=
  ['/', 'r', 'o', 'o', 't', '/', 'l', 'i', 'b', '/', 'd', 'e', 'e', 'p', '/',
   'i', 'n', 'c', 'l', 'u', 'd', 'e', '.', 'j', 's']

/-- The character list of `/root/lib.js`. -/
def tgtLibDotJs : List Char :=
  ['/', 'r', 'o', 'o', 't', '/', 'l', 'i', 'b', '.', 'j', 's']

/-- The character list of `/root/lib/x.js`. -/
def tgtLibX : List Char :=
  ['/', 'r', 'o', 'o', 't', '/', 'l', 'i', 'b', '/', 'x', '.', 'j', 's']

/-- The character list of `/root/lib/a`. -/
def tgtLibA : List Char := ['/', 'r', 'o', 'o', 't', '/', 'l', 'i', 'b', '/', 'a']

/-- The character list of `/root/x.js`. -/
def tgtX : List Char := ['/', 'r', 'o', 'o', 't', '/', 'x', '.', 'j', 's']

/-- The character list of `/root/a.txt`. -/
def tgtATxt : List Char := ['/', 'r', 'o', 'o', 't', '/', 'a', '.', 't', 'x', 't']

/-- The character list of `lib/`. -/
def rLibSlash : List Char := ['l', 'i', 'b', '/']

/-- The character list of `!lib/deep/include.js`. -/
def rNegLibDeepInclude : List Char :=
  ['!', 'l', 'i', 'b', '/', 'd', 'e', 'e', 'p', '/',
   'i', 'n', 'c', 'l', 'u', 'd', 'e', '.', 'j', 's']

/-- The character list of `*.js`. -/
def rStarJs : List Char := ['*', '.', 'j', 's']

/-- The character list of `!lib.js`. -/
def rNegLibJs : List Char := ['!', 'l', 'i', 'b', '.', 'j', 's']

/-- The character list of `xyz.js`. -/
def rXyzJs : List Char := ['x', 'y', 'z', '.', 'j', 's']

/-- The character list of `lib`. -/
def rLib : List Char := ['l', 'i', 'b']

/-- The character list of `!lib/`. -/
def rNegLibSlash : List Char := ['!', 'l', 'i', 'b', '/']

/-- The character list of `[`. -/
def rBracket : List Char := ['[']

/-- The character list of `*.j[s`. -/
def rStarJBracketS : List Char := ['*', '.', 'j', '[', 's']

/-- The character list of a single space. -/
def rSpace : List Char := [' ']

/-- The character list of `!`. -/
def rBang : List Char := ['!']

/-- The character list of `lib.js`. -/
def rLibJs : List Char := ['l', 'i', 'b', '.', 'j', 's']

/-- The character list of `*.js/`. -/
def rStarJsSlash : List Char := ['*', '.', 'j', 's', '/']

/-! ## Structural lemmas about classification -/

/-- A one-character list is a prefix of a cons exactly when the heads agree. -/
theorem isPrefixOf_single_cons {c d : Char} {r : List Char} :
    List.isPrefixOf [c] (d :: r) = true ↔ d = c := by
  constructor
  · intro h
    simp only [List.isPrefixOf, Bool.and_eq_true, beq_iff_eq] at h
    exact h.1.symm
  · intro h
    simp [List.isPrefixOf, h]

/-- Shape of a successful classification: the pattern's fields as functions
of its normalized text. -/
theorem Pattern.new_some {l : List Char} {g : Pattern} (h : Pattern.new l = some g) :
    g.string = removeWhitespace (if List.isPrefixOf ['!'] l then l.drop 1 else l) ∧
    g.negated = List.isPrefixOf ['!'] l ∧
    g.pathKind = (if hasExtension g.string then PathKind.File
      else if g.string.getLast? = some '/' then PathKind.Dir
      else PathKind.Both) ∧
    (g.matchType = Match.Anywhere ↔
      (¬ List.isPrefixOf ['*', '*'] g.string = true ∧
        ¬ List.isPrefixOf ['/'] g.string = true ∧
        hasNoMiddleSeparators g.string = true)) := by
  simp only [Pattern.new] at h
  by_cases hpre : List.isPrefixOf ['*', '*']
      (removeWhitespace (if List.isPrefixOf ['!'] l then l.drop 1 else l)) = true
  · rw [if_pos hpre] at h
    cases h
    refine ⟨rfl, rfl, rfl, ?_⟩
    constructor
    · intro habs; cases habs
    · intro ⟨h1, _, _⟩; exact absurd hpre h1
  · rw [if_neg hpre] at h
    rcases hnorm : removeWhitespace (if List.isPrefixOf ['!'] l then l.drop 1 else l) with
      _ | ⟨c, rest⟩
    · rw [hnorm] at h; cases h
    · rw [hnorm] at h
      cases h
      rw [hnorm] at hpre
      refine ⟨rfl, rfl, rfl, ?_⟩
      by_cases hc : c ≠ '/' ∧ hasNoMiddleSeparators (c :: rest)
      · rw [if_pos hc]
        simp only [true_iff]
        refine ⟨hpre, ?_, hc.2⟩
        rw [isPrefixOf_single_cons]
        exact hc.1
      · rw [if_neg hc]
        constructor
        · intro habs; cases habs
        · intro ⟨_, h2, h3⟩
          rw [isPrefixOf_single_cons] at h2
          exact absurd ⟨h2, h3⟩ hc

/-- The `.`-tail check succeeds exactly on a dot followed by a non-empty
`*`-free remainder. -/
theorem extTail_iff {s : List Char} :
    extTail s = true ↔ ∃ b, s = '.' :: b ∧ b ≠ [] ∧ '*' ∉ b := by
  cases s with
  | nil =>
    constructor
    · intro h; cases h
    · rintro ⟨b, hb, -, -⟩; cases hb
  | cons c rest =>
    by_cases hc : c = '.'
    · subst hc
      show (!rest.isEmpty && rest.all fun x => !(x = '*')) = true ↔ _
      simp only [Bool.and_eq_true, Bool.not_eq_true', List.isEmpty_eq_false,
        List.all_eq_true, Bool.not_eq_true, decide_eq_false_iff_not]
      constructor
      · intro ⟨h1, h2⟩
        exact ⟨rest, rfl, h1, fun hm => h2 _ hm rfl⟩
      · intro ⟨b, hb, h1, h2⟩
        cases hb
        exact ⟨h1, fun x hx hx' => h2 (hx' ▸ hx)⟩
    · have hext : extTail (c :: rest) = false := by
        rcases c with ⟨v, hv⟩
        simp only [extTail]
        split
        · rename_i heq
          exact absurd (by cases heq; rfl) hc
        · rfl
      rw [hext]
      constructor
      · intro h; cases h
      · rintro ⟨b, hb, -, -⟩
        cases hb
        exact absurd rfl hc

/-- The executable regex test agrees with its propositional reading. -/
theorem hasExtension_iff {s : List Char} :
    hasExtension s = true ↔ EndsInStarDotExt s := by
  induction s with
  | nil =>
    show false = true ↔ _
    simp only [Bool.false_eq_true, false_iff, EndsInStarDotExt]
    rintro ⟨a, b, hab, -, -⟩
    exact absurd hab (by simp)
  | cons c rest ih =>
    show ((decide (c = '*') && extTail rest) || hasExtension rest) = true ↔ _
    simp only [Bool.or_eq_true, Bool.and_eq_true, decide_eq_true_eq]
    rw [extTail_iff, ih]
    unfold EndsInStarDotExt
    constructor
    · rintro (⟨hc, b, hb, h1, h2⟩ | ⟨a, b, hab, h1, h2⟩)
      · exact ⟨[], b, by simp [hc, hb], h1, h2⟩
      · exact ⟨c :: a, b, by simp [hab], h1, h2⟩
    · rintro ⟨a, b, hab, h1, h2⟩
      cases a with
      | nil =>
        simp only [List.nil_append, List.cons.injEq] at hab
        exact Or.inl ⟨hab.1, b, hab.2, h1, h2⟩
      | cons x a' =>
        simp only [List.cons_append, List.cons.injEq] at hab
        exact Or.inr ⟨a', b, hab.2, h1, h2⟩

/-- `ignores_path`'s verdict as a pure function of the instance root and
case sensitivity (the separator-strictness flag is overwritten by
`make_full_path` before the options are consulted). -/
theorem ignoresPath_fst (g : Gitignore) (glob : Pattern) (target : List Char) :
    (ignoresPath g glob target).1 = ipVal g.root g.options.caseSensitive glob target := by
  unfold ignoresPath ipVal
  cases htk : tokenize (makeFullPathStr g.root glob.pathKind glob.matchType glob.string) true with
  | none => simp [makeFullPath, htk]
  | some toks => simp [makeFullPath, htk, setRls]

/-! ## Equations for the tokenizer -/

/-- A character other than `*` and `[` compiles to a `lit` token, with the
segment-start flag set exactly when the character is `/`. -/
theorem tokenize_lit {c : Char} {rest : List Char} {b : Bool}
    (h1 : c ≠ '*') (h2 : c ≠ '[') :
    tokenize (c :: rest) b
      = (tokenize rest (decide (c = '/'))).map (Tok.lit c :: ·) := by
  rw [tokenize.eq_def]
  simp [h1, h2]

/-- A trailing single `*` compiles to a `star` token. -/
theorem tokenize_star_end {b : Bool} : tokenize ['*'] b = some [Tok.star] := by
  rw [tokenize.eq_def]
  simp

/-- A `*` followed by a non-`*` character compiles to a `star` token. -/
theorem tokenize_star {c2 : Char} {rest2 : List Char} {b : Bool} (h : c2 ≠ '*') :
    tokenize ('*' :: c2 :: rest2) b
      = (tokenize (c2 :: rest2) false).map (Tok.star :: ·) := by
  rw [tokenize.eq_def]
  simp [h]

/-- `**` with the segment-start flag cleared fails to compile. -/
theorem tokenize_starstar_false {rest2 : List Char} :
    tokenize ('*' :: '*' :: rest2) false = none := by
  rw [tokenize.eq_def]
  simp

/-- A trailing `**` fails to compile. -/
theorem tokenize_starstar_end {b : Bool} : tokenize ['*', '*'] b = none := by
  rw [tokenize.eq_def]
  cases b <;> simp

/-- `**` followed by anything but `/` fails to compile. -/
theorem tokenize_starstar_stuck {c3 : Char} {rest3 : List Char} {b : Bool}
    (h : c3 ≠ '/') :
    tokenize ('*' :: '*' :: c3 :: rest3) b = none := by
  rw [tokenize.eq_def]
  cases b <;> simp [h]

/-- `**/` at the start of a segment compiles to a `recSep` token. -/
theorem tokenize_recSep {rest3 : List Char} :
    tokenize ('*' :: '*' :: '/' :: rest3) true
      = (tokenize rest3 true).map (Tok.recSep :: ·) := by
  rw [tokenize.eq_def]
  simp

/-- `[` fails to compile. -/
theorem tokenize_bracket {rest : List Char} {b : Bool} :
    tokenize ('[' :: rest) b = none := by
  rw [tokenize.eq_def]
  simp

/-! ## Fuel elimination for the matcher -/

/-- The matcher's answer does not depend on the fuel, as long as the fuel
exceeds `s.length + toksWeight ts` (every recursive call strictly
decreases that measure). -/
theorem globMatchF_fuel :
    ∀ (m : Nat) (ts : List Tok) (s : List Char) (o : MatchOptions) (f₁ f₂ : Nat),
      s.length + toksWeight ts ≤ m →
      s.length + toksWeight ts < f₁ → s.length + toksWeight ts < f₂ →
      globMatchF f₁ ts s o = globMatchF f₂ ts s o := by
  intro m
  induction m with
  | zero =>
    intro ts s o f₁ f₂ hm h₁ h₂
    have hs : s = [] := by
      cases s with
      | nil => rfl
      | cons d ds => simp [List.length] at hm
    have ht : ts = [] := by
      cases ts with
      | nil => rfl
      | cons t ts' => cases t <;> simp [toksWeight] at hm
    subst hs; subst ht
    obtain ⟨a, rfl⟩ : ∃ a, f₁ = a + 1 := ⟨f₁ - 1, by omega⟩
    obtain ⟨c, rfl⟩ : ∃ c, f₂ = c + 1 := ⟨f₂ - 1, by omega⟩
    rfl
  | succ m ih =>
    intro ts s o f₁ f₂ hm h₁ h₂
    obtain ⟨a, rfl⟩ : ∃ a, f₁ = a + 1 := ⟨f₁ - 1, by omega⟩
    obtain ⟨c, rfl⟩ : ∃ c, f₂ = c + 1 := ⟨f₂ - 1, by omega⟩
    cases ts with
    | nil =>
      cases s with
      | nil => rfl
      | cons d ds => rfl
    | cons t ts' =>
      cases t with
      | lit ch =>
        cases s with
        | nil => rfl
        | cons d ds =>
          have e₁ : globMatchF (a + 1) (Tok.lit ch :: ts') (d :: ds) o
            = (charEq o ch d && globMatchF a ts' ds o) := rfl
          have e₂ : globMatchF (c + 1) (Tok.lit ch :: ts') (d :: ds) o
            = (charEq o ch d && globMatchF c ts' ds o) := rfl
          have hw : toksWeight (Tok.lit ch :: ts') = 1 + toksWeight ts' := rfl
          rw [e₁, e₂,
            ih ts' ds o a c (by simp only [List.length_cons, hw] at hm ⊢; omega)
              (by simp only [List.length_cons, hw] at h₁ ⊢; omega)
              (by simp only [List.length_cons, hw] at h₂ ⊢; omega)]
      | star =>
        have hw : toksWeight (Tok.star :: ts') = 1 + toksWeight ts' := rfl
        cases s with
        | nil =>
          have e₁ : globMatchF (a + 1) (Tok.star :: ts') [] o = globMatchF a ts' [] o := rfl
          have e₂ : globMatchF (c + 1) (Tok.star :: ts') [] o = globMatchF c ts' [] o := rfl
          rw [e₁, e₂]
          exact ih ts' [] o a c (by simp only [hw] at hm ⊢; omega)
            (by simp only [hw] at h₁ ⊢; omega) (by simp only [hw] at h₂ ⊢; omega)
        | cons d ds =>
          have e₁ : globMatchF (a + 1) (Tok.star :: ts') (d :: ds) o
            = (globMatchF a ts' (d :: ds) o ||
              (!(o.requireLiteralSeparator && d = '/') &&
                globMatchF a (Tok.star :: ts') ds o)) := rfl
          have e₂ : globMatchF (c + 1) (Tok.star :: ts') (d :: ds) o
            = (globMatchF c ts' (d :: ds) o ||
              (!(o.requireLiteralSeparator && d = '/') &&
                globMatchF c (Tok.star :: ts') ds o)) := rfl
          rw [e₁, e₂,
            ih ts' (d :: ds) o a c (by simp only [List.length_cons, hw] at hm ⊢; omega)
              (by simp only [List.length_cons, hw] at h₁ ⊢; omega)
              (by simp only [List.length_cons, hw] at h₂ ⊢; omega),
            ih (Tok.star :: ts') ds o a c (by simp only [List.length_cons, hw] at hm ⊢; omega)
              (by simp only [List.length_cons, hw] at h₁ ⊢; omega)
              (by simp only [List.length_cons, hw] at h₂ ⊢; omega)]
      | recSep =>
        have hw : toksWeight (Tok.recSep :: ts') = 2 + toksWeight ts' := rfl
        have hw2 : toksWeight (Tok.recInner :: ts') = 1 + toksWeight ts' := rfl
        have e₁ : globMatchF (a + 1) (Tok.recSep :: ts') s o
          = (globMatchF a ts' s o || globMatchF a (Tok.recInner :: ts') s o) := rfl
        have e₂ : globMatchF (c + 1) (Tok.recSep :: ts') s o
          = (globMatchF c ts' s o || globMatchF c (Tok.recInner :: ts') s o) := rfl
        rw [e₁, e₂,
          ih ts' s o a c (by simp only [hw] at hm ⊢; omega)
            (by simp only [hw] at h₁ ⊢; omega) (by simp only [hw] at h₂ ⊢; omega),
          ih (Tok.recInner :: ts') s o a c (by simp only [hw, hw2] at hm ⊢; omega)
            (by simp only [hw, hw2] at h₁ ⊢; omega)
            (by simp only [hw, hw2] at h₂ ⊢; omega)]
      | recInner =>
        have hw : toksWeight (Tok.recInner :: ts') = 1 + toksWeight ts' := rfl
        cases s with
        | nil => rfl
        | cons d ds =>
          have e₁ : globMatchF (a + 1) (Tok.recInner :: ts') (d :: ds) o
            = (if d = '/' then
                globMatchF a ts' ds o || globMatchF a (Tok.recInner :: ts') ds o
              else globMatchF a (Tok.recInner :: ts') ds o) := rfl
          have e₂ : globMatchF (c + 1) (Tok.recInner :: ts') (d :: ds) o
            = (if d = '/' then
                globMatchF c ts' ds o || globMatchF c (Tok.recInner :: ts') ds o
              else globMatchF c (Tok.recInner :: ts') ds o) := rfl
          rw [e₁, e₂]
          by_cases hd : d = '/'
          · rw [if_pos hd, if_pos hd,
              ih ts' ds o a c (by simp only [List.length_cons, hw] at hm ⊢; omega)
                (by simp only [List.length_cons, hw] at h₁ ⊢; omega)
                (by simp only [List.length_cons, hw] at h₂ ⊢; omega),
              ih (Tok.recInner :: ts') ds o a c
                (by simp only [List.length_cons, hw] at hm ⊢; omega)
                (by simp only [List.length_cons, hw] at h₁ ⊢; omega)
                (by simp only [List.length_cons, hw] at h₂ ⊢; omega)]
          · rw [if_neg hd, if_neg hd,
              ih (Tok.recInner :: ts') ds o a c
                (by simp only [List.length_cons, hw] at hm ⊢; omega)
                (by simp only [List.length_cons, hw] at h₁ ⊢; omega)
                (by simp only [List.length_cons, hw] at h₂ ⊢; omega)]

/-- `globMatchW` equals the fuelled matcher at any sufficient fuel. -/
theorem globMatchW_eq_fuel {ts : List Tok} {s : List Char} {o : MatchOptions} {f : Nat}
    (hf : s.length + toksWeight ts < f) :
    globMatchW ts s o = globMatchF f ts s o :=
  globMatchF_fuel (s.length + toksWeight ts) ts s o _ f le_rfl (by omega) hf

/-- Any sufficiently fuelled matcher call equals `globMatchW`. -/
theorem globMatchF_big {ts : List Tok} {s : List Char} {o : MatchOptions} (f : Nat)
    (hf : s.length + toksWeight ts < f) :
    globMatchF f ts s o = globMatchW ts s o := (globMatchW_eq_fuel hf).symm

/-! ## Fuel-free equations for the matcher -/

theorem globW_nil_nil {o : MatchOptions} : globMatchW [] [] o = true := rfl

theorem globW_nil_cons {d : Char} {ds : List Char} {o : MatchOptions} :
    globMatchW [] (d :: ds) o = false := rfl

theorem globW_lit_nil {ch : Char} {ts : List Tok} {o : MatchOptions} :
    globMatchW (Tok.lit ch :: ts) [] o = false := rfl

theorem globW_lit_cons {ch d : Char} {ts : List Tok} {ds : List Char} {o : MatchOptions} :
    globMatchW (Tok.lit ch :: ts) (d :: ds) o = (charEq o ch d && globMatchW ts ds o) := by
  have hw : toksWeight (Tok.lit ch :: ts) = 1 + toksWeight ts := rfl
  unfold globMatchW
  have e : globMatchF ((d :: ds).length + toksWeight (Tok.lit ch :: ts) + 1)
      (Tok.lit ch :: ts) (d :: ds) o
    = (charEq o ch d &&
        globMatchF ((d :: ds).length + toksWeight (Tok.lit ch :: ts)) ts ds o) := rfl
  rw [e, @globMatchF_big ts ds o ((d :: ds).length + toksWeight (Tok.lit ch :: ts))
    (by simp only [List.length_cons, hw]; omega)]
  rfl

theorem globW_star_nil {ts : List Tok} {o : MatchOptions} :
    globMatchW (Tok.star :: ts) [] o = globMatchW ts [] o := by
  have hw : toksWeight (Tok.star :: ts) = 1 + toksWeight ts := rfl
  unfold globMatchW
  have e : globMatchF (([] : List Char).length + toksWeight (Tok.star :: ts) + 1)
      (Tok.star :: ts) [] o
    = globMatchF (([] : List Char).length + toksWeight (Tok.star :: ts)) ts [] o := rfl
  rw [e, @globMatchF_big ts [] o (([] : List Char).length + toksWeight (Tok.star :: ts))
    (by simp only [List.length_nil, hw]; omega)]
  rfl

theorem globW_star_cons {d : Char} {ds : List Char} {ts : List Tok} {o : MatchOptions} :
    globMatchW (Tok.star :: ts) (d :: ds) o
      = (globMatchW ts (d :: ds) o ||
        (!(o.requireLiteralSeparator && d = '/') && globMatchW (Tok.star :: ts) ds o)) := by
  have hw : toksWeight (Tok.star :: ts) = 1 + toksWeight ts := rfl
  unfold globMatchW
  have e : globMatchF ((d :: ds).length + toksWeight (Tok.star :: ts) + 1)
      (Tok.star :: ts) (d :: ds) o
    = (globMatchF ((d :: ds).length + toksWeight (Tok.star :: ts)) ts (d :: ds) o ||
      (!(o.requireLiteralSeparator && d = '/') &&
        globMatchF ((d :: ds).length + toksWeight (Tok.star :: ts)) (Tok.star :: ts) ds o)) := rfl
  rw [e,
    @globMatchF_big ts (d :: ds) o ((d :: ds).length + toksWeight (Tok.star :: ts))
      (by simp only [hw]; omega),
    @globMatchF_big (Tok.star :: ts) ds o ((d :: ds).length + toksWeight (Tok.star :: ts))
      (by simp only [List.length_cons]; omega)]
  rfl

theorem globW_recSep {s : List Char} {ts : List Tok} {o : MatchOptions} :
    globMatchW (Tok.recSep :: ts) s o
      = (globMatchW ts s o || globMatchW (Tok.recInner :: ts) s o) := by
  have hw : toksWeight (Tok.recSep :: ts) = 2 + toksWeight ts := rfl
  have hw2 : toksWeight (Tok.recInner :: ts) = 1 + toksWeight ts := rfl
  unfold globMatchW
  have e : globMatchF (s.length + toksWeight (Tok.recSep :: ts) + 1) (Tok.recSep :: ts) s o
    = (globMatchF (s.length + toksWeight (Tok.recSep :: ts)) ts s o ||
      globMatchF (s.length + toksWeight (Tok.recSep :: ts)) (Tok.recInner :: ts) s o) := rfl
  rw [e,
    @globMatchF_big ts s o (s.length + toksWeight (Tok.recSep :: ts))
      (by simp only [hw]; omega),
    @globMatchF_big (Tok.recInner :: ts) s o (s.length + toksWeight (Tok.recSep :: ts))
      (by simp only [hw, hw2]; omega)]
  rfl

theorem globW_recInner_nil {ts : List Tok} {o : MatchOptions} :
    globMatchW (Tok.recInner :: ts) [] o = false := rfl

theorem globW_recInner_cons {d : Char} {ds : List Char} {ts : List Tok} {o : MatchOptions} :
    globMatchW (Tok.recInner :: ts) (d :: ds) o
      = (if d = '/' then globMatchW ts ds o || globMatchW (Tok.recInner :: ts) ds o
        else globMatchW (Tok.recInner :: ts) ds o) := by
  have hw : toksWeight (Tok.recInner :: ts) = 1 + toksWeight ts := rfl
  unfold globMatchW
  have e : globMatchF ((d :: ds).length + toksWeight (Tok.recInner :: ts) + 1)
      (Tok.recInner :: ts) (d :: ds) o
    = (if d = '/' then
        globMatchF ((d :: ds).length + toksWeight (Tok.recInner :: ts)) ts ds o ||
          globMatchF ((d :: ds).length + toksWeight (Tok.recInner :: ts)) (Tok.recInner :: ts) ds o
      else
        globMatchF ((d :: ds).length + toksWeight (Tok.recInner :: ts)) (Tok.recInner :: ts) ds o)
    := rfl
  rw [e,
    @globMatchF_big ts ds o ((d :: ds).length + toksWeight (Tok.recInner :: ts))
      (by simp only [List.length_cons, hw]; omega),
    @globMatchF_big (Tok.recInner :: ts) ds o ((d :: ds).length + toksWeight (Tok.recInner :: ts))
      (by simp only [List.length_cons]; omega)]
  rfl

/-! ## Claim theorems (first group) -/

/-- Claim C4: the claim states that `classify` (`Pattern::new`) is total and
never panics, and that empty or whitespace-only rules are no-ops.  The code
violates this: `first_char` unwraps `chars().nth(0)`, so `Pattern::new`
panics (modelled as `none`) on the empty rule, on a whitespace-only rule,
and on a bare `!`, and an evaluation containing such a rule panics instead
of treating it as a no-op. -/
theorem c4_classify_panics_on_empty_rule :
    Pattern.new ([] : List Char) = none ∧
    Pattern.new rSpace = none ∧
    Pattern.new rBang = none ∧
    evaluate [rSpace] cRoot tgtX = none := by decide

/-- Claim C5 counterexample: the claim states that a trailing-`/` pattern is
always kind `Directory` and that a literal `lib.js` is kind `File`.  In the
code the `File` test is the regex `\*\.[^\*]+$`, which requires a literal
`*` before the dot and is checked before the trailing-`/` test: `lib.js`
classifies as `Both`, and `*.js/` classifies as `File` despite its trailing
`/`. -/
theorem c5_counterexample :
    (Pattern.new rLibJs).map Pattern.pathKind = some PathKind.Both ∧
    (Pattern.new rStarJsSlash).map Pattern.pathKind = some PathKind.File := by decide

/-- Claim C5, amended: for every rule string that classifies, the kind is
`File` iff the normalized text matches the regex `\*\.[^\*]+$` (it ends in
`*.` followed by a non-empty wildcard-free extension) — this test has
priority over the trailing-`/` test — otherwise `Directory` iff the text
ends with `/`, otherwise `Both`. -/
theorem c5_kind_characterization {l : List Char} {g : Pattern}
    (h : Pattern.new l = some g) :
    (g.pathKind = PathKind.File ↔ EndsInStarDotExt g.string) ∧
    (g.pathKind = PathKind.Dir ↔
      ¬ EndsInStarDotExt g.string ∧ g.string.getLast? = some '/') ∧
    (g.pathKind = PathKind.Both ↔
      ¬ EndsInStarDotExt g.string ∧ g.string.getLast? ≠ some '/') := by
  obtain ⟨-, -, hk, -⟩ := Pattern.new_some h
  rw [← hasExtension_iff]
  by_cases he : hasExtension g.string = true <;>
    by_cases hl : g.string.getLast? = some '/' <;>
    simp [he, hl] at hk <;>
    simp [hk, he, hl]

/-- Witness for the amended claim C5 at the concrete rule `lib/`. -/
theorem c5_witness :
    Pattern.new rLibSlash = some ⟨rLibSlash, Match.Anywhere, PathKind.Dir, false⟩ ∧
    ((⟨rLibSlash, Match.Anywhere, PathKind.Dir, false⟩ : Pattern).pathKind = PathKind.Dir ↔
      ¬ EndsInStarDotExt rLibSlash ∧ rLibSlash.getLast? = some '/') :=
  ⟨rfl,
   (@c5_kind_characterization rLibSlash ⟨rLibSlash, Match.Anywhere, PathKind.Dir, false⟩ rfl).2.1⟩

/-- Claim C6: the classified anchor is `Anywhere` iff the normalized text
does not start with `**`, does not start with `/`, and splitting it on `/`
yields at most one non-empty segment; otherwise `Relative`. -/
theorem c6_anchor_characterization {l : List Char} {g : Pattern}
    (h : Pattern.new l = some g) :
    g.matchType = Match.Anywhere ↔
      (¬ List.isPrefixOf ['*', '*'] g.string = true ∧
        ¬ List.isPrefixOf ['/'] g.string = true ∧
        ((splitOnSlash g.string).filter (fun seg => !seg.isEmpty)).length ≤ 1) := by
  obtain ⟨-, -, -, hm⟩ := Pattern.new_some h
  rw [hm]
  unfold hasNoMiddleSeparators
  simp only [decide_eq_true_eq]

/-- Witness for claim C6 at the concrete rule `lib`. -/
theorem c6_witness :
    Pattern.new rLib = some ⟨rLib, Match.Anywhere, PathKind.Both, false⟩ ∧
    ((⟨rLib, Match.Anywhere, PathKind.Both, false⟩ : Pattern).matchType = Match.Anywhere ↔
      (¬ List.isPrefixOf ['*', '*'] rLib = true ∧
        ¬ List.isPrefixOf ['/'] rLib = true ∧
        ((splitOnSlash rLib).filter (fun seg => !seg.isEmpty)).length ≤ 1)) :=
  ⟨rfl, @c6_anchor_characterization rLib ⟨rLib, Match.Anywhere, PathKind.Both, false⟩ rfl⟩

/-- Claim C7: the claim states that a rule whose expansion the glob
primitive cannot compile is skipped and reported, with the remaining rules
still producing a verdict.  The code instead unwraps the compile error and
panics (modelled as `none`): with the malformed bracket rule `[` alone the
evaluation aborts, and with a following well-formed rule `*.js` — which the
claim says would still be scanned and produce a verdict — the evaluation
aborts as well. -/
theorem c7_uncompilable_rule_panics :
    evaluate [rBracket] cRoot tgtX = none ∧
    evaluate [rBracket, rStarJs] cRoot tgtX = none := by decide

/-- Claim C10: at the single-pattern level, `ignores_path` on a pattern
whose raw rule begins with `!` returns `true` exactly when the expanded
expression does not match the target. -/
theorem c10_negated_rule_inverts_match {raw : List Char} {g : Gitignore}
    {pat : Pattern} {target : List Char} {toks : List Tok}
    (hraw : List.isPrefixOf ['!'] raw = true)
    (hpat : Pattern.new raw = some pat)
    (htk : tokenize (makeFullPathStr g.root pat.pathKind pat.matchType pat.string) true
      = some toks) :
    ((ignoresPath g pat target).1 = some true ↔
      globMatchW toks target ⟨mfpFlag pat.matchType, g.options.caseSensitive⟩ = false) := by
  have hneg : pat.negated = true := by
    obtain ⟨-, hn, -, -⟩ := Pattern.new_some hpat
    rw [hn, hraw]
  rw [ignoresPath_fst]
  unfold ipVal
  rw [htk, hneg]
  simp

/-- Witness for claim C10: the rule `!lib.js` against `/root/a.txt`. -/
theorem c10_witness :
    List.isPrefixOf ['!'] rNegLibJs = true ∧
    Pattern.new rNegLibJs = some ⟨rLibJs, Match.Anywhere, PathKind.Both, true⟩ ∧
    ((ignoresPath ⟨cRoot, MatchOptions.new⟩
        ⟨rLibJs, Match.Anywhere, PathKind.Both, true⟩ tgtATxt).1 = some true ↔
      globMatchW [Tok.recSep, Tok.lit 'l', Tok.lit 'i', Tok.lit 'b', Tok.lit '.',
          Tok.lit 'j', Tok.lit 's', Tok.star] tgtATxt
        ⟨mfpFlag Match.Anywhere, true⟩ = false) :=
  ⟨by decide, rfl,
   @c10_negated_rule_inverts_match rNegLibJs ⟨cRoot, MatchOptions.new⟩
     ⟨rLibJs, Match.Anywhere, PathKind.Both, true⟩ tgtATxt
     [Tok.recSep, Tok.lit 'l', Tok.lit 'i', Tok.lit 'b', Tok.lit '.',
      Tok.lit 'j', Tok.lit 's', Tok.star] (by decide) rfl rfl⟩

/-- Claim C1 counterexample: the claim asserts that whenever some blocked
directory (expanded as `Directory` with its recorded anchor) contains the
target, `evaluate` returns `true` regardless of the other rules.  With
rules `["[", "lib/"]` the blocked set contains `lib/` (anchor `Anywhere`)
and its directory expansion matches `/root/lib/x.js`, yet `evaluate`
panics (`none`) instead of returning `true`: the Pass-2 expansion of the
blocked entry `[` fails to compile and is unwrapped. -/
theorem c1_counterexample :
    findIgnoredDirsAnc [rBracket, rLibSlash] =
      some [(rBracket, Match.Anywhere), (rLibSlash, Match.Anywhere)] ∧
    specDirContains cRoot rLibSlash Match.Anywhere tgtLibX = true ∧
    evaluate [rBracket, rLibSlash] cRoot tgtLibX = none := by decide

/-- Claim C2 counterexample: the claim's scan leaves the verdict unchanged
at a non-matching rule.  With rules `["*.js", "xyz.js"]` and target
`/root/lib.js` — where no blocked directory contains the target — the
claimed scan yields `true` (the first rule matches, the second does not),
but `evaluate` returns `false`: the loop overwrites the verdict with each
rule's own `ignores_path` result, matching or not. -/
theorem c2_counterexample :
    findIgnoredDirsAnc [rStarJs, rXyzJs] = some [(rXyzJs, Match.Anywhere)] ∧
    specDirContains cRoot rXyzJs Match.Anywhere tgtLibDotJs = false ∧
    specScanStated cRoot tgtLibDotJs [rStarJs, rXyzJs] = true ∧
    evaluate [rStarJs, rXyzJs] cRoot tgtLibDotJs = some false := by decide

/-- Claim C3 counterexample: the claim's negated-ancestor forms include the
pattern's own directory form for every pattern.  For the slash-free rule
`lib`, the claim's forms contain `!lib/`, which occurs in the rule list
`["lib", "!lib/"]`, so the claim says `lib` is not blocked — but
`find_ignored_dirs` computes no parents at all for a slash-free pattern
and does block `lib`. -/
theorem c3_counterexample :
    specStatedBlockedCond [rLib, rNegLibSlash] rLib = false ∧
    findIgnoredDirs [rLib, rNegLibSlash] = some [rLib] := by decide

/-- With `*` free to cross `/`, a sole `star` token matches every string. -/
theorem globW_star_all {s : List Char} {o : MatchOptions}
    (ho : o.requireLiteralSeparator = false) :
    globMatchW [Tok.star] s o = true := by
  induction s with
  | nil => rw [globW_star_nil]; exact globW_nil_nil
  | cons d ds ih => rw [globW_star_cons]; simp [globW_nil_cons, ho, ih]

/-- A trailing `*` (with `/`-crossing allowed) absorbs whatever any other
token suffix matched: if `ts ++ ts₂` matches, so does `ts ++ [star]`. -/
theorem globW_append_star_aux :
    ∀ (n : Nat) (ts : List Tok) (t : List Char) {ts₂ : List Tok} {o : MatchOptions},
      t.length + toksWeight ts ≤ n →
      o.requireLiteralSeparator = false →
      globMatchW (ts ++ ts₂) t o = true →
      globMatchW (ts ++ [Tok.star]) t o = true := by
  intro n
  induction n with
  | zero =>
    intro ts t ts₂ o hm ho h
    have ht : ts = [] := by
      cases ts with
      | nil => rfl
      | cons tk ts' => cases tk <;> simp [toksWeight] at hm
    subst ht
    simpa using globW_star_all ho
  | succ n ih =>
    intro ts t ts₂ o hm ho h
    cases ts with
    | nil => simpa using globW_star_all ho
    | cons tk ts' =>
      cases tk with
      | lit ch =>
        have hw : toksWeight (Tok.lit ch :: ts') = 1 + toksWeight ts' := rfl
        cases t with
        | nil => rw [List.cons_append, globW_lit_nil] at h; cases h
        | cons d ds =>
          rw [List.cons_append, globW_lit_cons] at h
          rw [List.cons_append, globW_lit_cons]
          simp only [Bool.and_eq_true] at h ⊢
          exact ⟨h.1, ih ts' ds
            (by simp only [List.length_cons, hw] at hm ⊢; omega) ho h.2⟩
      | star =>
        have hw : toksWeight (Tok.star :: ts') = 1 + toksWeight ts' := rfl
        cases t with
        | nil =>
          rw [List.cons_append, globW_star_nil] at h
          rw [List.cons_append, globW_star_nil]
          exact ih ts' [] (by simp only [List.length_nil, hw] at hm ⊢; omega) ho h
        | cons d ds =>
          rw [List.cons_append, globW_star_cons] at h
          rw [List.cons_append, globW_star_cons]
          simp only [Bool.or_eq_true, Bool.and_eq_true] at h ⊢
          rcases h with h | ⟨hc, h⟩
          · exact Or.inl (ih ts' (d :: ds)
              (by simp only [List.length_cons, hw] at hm ⊢; omega) ho h)
          · refine Or.inr ⟨hc, ?_⟩
            have h' : globMatchW ((Tok.star :: ts') ++ ts₂) ds o = true := by
              rw [List.cons_append]; exact h
            have := ih (Tok.star :: ts') ds
              (by simp only [List.length_cons, hw] at hm ⊢; omega) ho h'
            rw [List.cons_append] at this
            exact this
      | recSep =>
        have hw : toksWeight (Tok.recSep :: ts') = 2 + toksWeight ts' := rfl
        have hw2 : toksWeight (Tok.recInner :: ts') = 1 + toksWeight ts' := rfl
        rw [List.cons_append, globW_recSep] at h
        rw [List.cons_append, globW_recSep]
        simp only [Bool.or_eq_true] at h ⊢
        rcases h with h | h
        · exact Or.inl (ih ts' t (by simp only [hw] at hm ⊢; omega) ho h)
        · right
          have h' : globMatchW ((Tok.recInner :: ts') ++ ts₂) t o = true := by
            rw [List.cons_append]; exact h
          have := ih (Tok.recInner :: ts') t
            (by simp only [hw, hw2] at hm ⊢; omega) ho h'
          rw [List.cons_append] at this
          exact this
      | recInner =>
        have hw : toksWeight (Tok.recInner :: ts') = 1 + toksWeight ts' := rfl
        cases t with
        | nil => rw [List.cons_append, globW_recInner_nil] at h; cases h
        | cons d ds =>
          rw [List.cons_append, globW_recInner_cons] at h
          rw [List.cons_append, globW_recInner_cons]
          by_cases hd : d = '/'
          · rw [if_pos hd] at h ⊢
            simp only [Bool.or_eq_true] at h ⊢
            rcases h with h | h
            · exact Or.inl (ih ts' ds
                (by simp only [List.length_cons, hw] at hm ⊢; omega) ho h)
            · right
              have h' : globMatchW ((Tok.recInner :: ts') ++ ts₂) ds o = true := by
                rw [List.cons_append]; exact h
              have := ih (Tok.recInner :: ts') ds
                (by simp only [List.length_cons, hw] at hm ⊢; omega) ho h'
              rw [List.cons_append] at this
              exact this
          · rw [if_neg hd] at h ⊢
            have h' : globMatchW ((Tok.recInner :: ts') ++ ts₂) ds o = true := by
              rw [List.cons_append]; exact h
            have := ih (Tok.recInner :: ts') ds
              (by simp only [List.length_cons, hw] at hm ⊢; omega) ho h'
            rw [List.cons_append] at this
            exact this

/-- Wrapper for the star-absorption lemma. -/
theorem globW_append_star {ts ts₂ : List Tok} {t : List Char} {o : MatchOptions}
    (ho : o.requireLiteralSeparator = false)
    (h : globMatchW (ts ++ ts₂) t o = true) :
    globMatchW (ts ++ [Tok.star]) t o = true :=
  globW_append_star_aux (t.length + toksWeight ts) ts t le_rfl ho h

/-- If an expression followed by `**` `*` `/` `*` compiles, the part before
that suffix is empty (with the segment-start flag set) or ends in `/`. -/
theorem tokenize_dirsuffix_aux :
    ∀ (n : Nat) (xs : List Char) (b : Bool) {ts : List Tok},
      xs.length ≤ n →
      tokenize (xs ++ ['*', '*', '/', '*']) b = some ts →
      (xs = [] ∧ b = true) ∨ xs.getLast? = some '/' := by
  intro n
  induction n with
  | zero =>
    intro xs b ts hm h
    have hx : xs = [] := List.length_eq_zero.mp (by omega)
    subst hx
    cases b with
    | true => exact Or.inl ⟨rfl, rfl⟩
    | false =>
      rw [List.nil_append, tokenize_starstar_false] at h
      cases h
  | succ n ih =>
    intro xs b ts hm h
    cases xs with
    | nil =>
      cases b with
      | true => exact Or.inl ⟨rfl, rfl⟩
      | false =>
        rw [List.nil_append, tokenize_starstar_false] at h
        cases h
    | cons x xs' =>
      simp only [List.cons_append] at h
      simp only [List.length_cons] at hm
      by_cases hx : x = '*'
      · subst hx
        cases xs' with
        | nil =>
          simp only [List.nil_append] at h
          rw [tokenize_starstar_stuck (by decide)] at h
          cases h
        | cons y ys =>
          simp only [List.cons_append] at h
          by_cases hy : y = '*'
          · subst hy
            cases ys with
            | nil =>
              simp only [List.nil_append] at h
              rw [tokenize_starstar_stuck (by decide)] at h
              cases h
            | cons z zs =>
              simp only [List.cons_append] at h
              by_cases hz : z = '/'
              · subst hz
                cases b with
                | false =>
                  rw [tokenize_starstar_false] at h
                  cases h
                | true =>
                  rw [tokenize_recSep] at h
                  obtain ⟨ts', hts', -⟩ := Option.map_eq_some'.mp h
                  simp only [List.length_cons] at hm
                  rcases ih zs true (by omega) hts' with ⟨rfl, -⟩ | hlast
                  · exact Or.inr rfl
                  · right
                    have hne : zs ≠ [] := by
                      intro hz0
                      rw [hz0] at hlast
                      cases hlast
                    cases zs with
                    | nil => exact absurd rfl hne
                    | cons w ws =>
                      rw [List.getLast?_cons_cons, List.getLast?_cons_cons,
                        List.getLast?_cons_cons]
                      exact hlast
              · rw [tokenize_starstar_stuck hz] at h
                cases h
          · rw [tokenize_star hy] at h
            obtain ⟨ts', hts', -⟩ := Option.map_eq_some'.mp h
            have hts'' : tokenize ((y :: ys) ++ ['*', '*', '/', '*']) false = some ts' := by
              simpa only [List.cons_append] using hts'
            simp only [List.length_cons] at hm
            rcases ih (y :: ys) false (by simp only [List.length_cons]; omega) hts''
              with ⟨h1, -⟩ | hlast
            · cases h1
            · right
              rw [List.getLast?_cons_cons]
              exact hlast
      · by_cases hxb : x = '['
        · subst hxb
          rw [tokenize_bracket] at h
          cases h
        · rw [tokenize_lit hx hxb] at h
          obtain ⟨ts', hts', -⟩ := Option.map_eq_some'.mp h
          rcases ih xs' (decide (x = '/')) (by omega) hts' with ⟨rfl, hflag⟩ | hlast
          · right
            have hx' : x = '/' := of_decide_eq_true hflag
            rw [hx']
            rfl
          · right
            have hne : xs' ≠ [] := by
              intro h0
              rw [h0] at hlast
              cases hlast
            cases xs' with
            | nil => exact absurd rfl hne
            | cons w ws =>
              rw [List.getLast?_cons_cons]
              exact hlast

/-- Wrapper for `tokenize_dirsuffix_aux`. -/
theorem tokenize_dirsuffix {xs : List Char} {b : Bool} {ts : List Tok}
    (h : tokenize (xs ++ ['*', '*', '/', '*']) b = some ts) :
    (xs = [] ∧ b = true) ∨ xs.getLast? = some '/' :=
  tokenize_dirsuffix_aux xs.length xs b le_rfl h

/-- Tokenizing an expression that ends in `/` splits over a following
suffix: the suffix is tokenized from a fresh segment start and appended. -/
theorem tokenize_append_slash_aux :
    ∀ (n : Nat) (xs : List Char), xs.length ≤ n → xs.getLast? = some '/' →
      ∀ (ys : List Char) (b : Bool),
        tokenize (xs ++ ys) b
          = (tokenize xs b).bind (fun t1 => (tokenize ys true).map (t1 ++ ·)) := by
  intro n
  induction n with
  | zero =>
    intro xs hm hl
    have hx : xs = [] := List.length_eq_zero.mp (by omega)
    subst hx
    cases hl
  | succ n ih =>
    intro xs hm hl ys b
    cases xs with
    | nil => cases hl
    | cons x xs' =>
      simp only [List.length_cons] at hm
      by_cases hx : x = '*'
      · subst hx
        cases xs' with
        | nil => exact absurd hl (by decide)
        | cons y ys' =>
          by_cases hy : y = '*'
          · subst hy
            cases ys' with
            | nil => exact absurd hl (by decide)
            | cons z zs =>
              by_cases hz : z = '/'
              · subst hz
                cases b with
                | false =>
                  simp only [List.cons_append]
                  rw [tokenize_starstar_false, tokenize_starstar_false]
                  rfl
                | true =>
                  simp only [List.cons_append]
                  rw [tokenize_recSep, tokenize_recSep]
                  cases zs with
                  | nil =>
                    simp only [List.nil_append]
                    cases h2 : tokenize ys true <;> simp [h2, tokenize]
                  | cons w ws =>
                    have hl' : (w :: ws).getLast? = some '/' := by
                      simpa only [List.getLast?_cons_cons] using hl
                    simp only [List.length_cons] at hm
                    rw [ih (w :: ws) (by simp only [List.length_cons]; omega) hl' ys true]
                    cases h1 : tokenize (w :: ws) true <;>
                      cases h2 : tokenize ys true <;> simp [h1, h2]
              · simp only [List.cons_append]
                rw [tokenize_starstar_stuck hz, tokenize_starstar_stuck hz]
                rfl
          · simp only [List.cons_append]
            rw [tokenize_star hy, tokenize_star hy]
            have hl' : (y :: ys').getLast? = some '/' := by
              simpa only [List.getLast?_cons_cons] using hl
            rw [← List.cons_append,
              ih (y :: ys') (by simp only [List.length_cons] at hm ⊢; omega) hl' ys false]
            cases h1 : tokenize (y :: ys') false <;>
              cases h2 : tokenize ys true <;> simp [h1, h2]
      · by_cases hxb : x = '['
        · subst hxb
          simp only [List.cons_append]
          rw [tokenize_bracket, tokenize_bracket]
          rfl
        · simp only [List.cons_append]
          rw [tokenize_lit hx hxb, tokenize_lit hx hxb]
          cases xs' with
          | nil =>
            have hx' : x = '/' := by
              simpa using hl
            subst hx'
            simp only [List.nil_append]
            cases h2 : tokenize ys true <;> simp [h2, tokenize]
          | cons w ws =>
            have hl' : (w :: ws).getLast? = some '/' := by
              simpa only [List.getLast?_cons_cons] using hl
            rw [ih (w :: ws) (by simp only [List.length_cons] at hm ⊢; omega) hl'
              ys (decide (x = '/'))]
            cases h1 : tokenize (w :: ws) (decide (x = '/')) <;>
              cases h2 : tokenize ys true <;> simp [h1, h2]

/-- Wrapper for `tokenize_append_slash_aux`. -/
theorem tokenize_append_slash {xs : List Char} (hl : xs.getLast? = some '/')
    (ys : List Char) (b : Bool) :
    tokenize (xs ++ ys) b
      = (tokenize xs b).bind (fun t1 => (tokenize ys true).map (t1 ++ ·)) :=
  tokenize_append_slash_aux xs.length xs le_rfl hl ys b

/-- A classified pattern's text is never empty. -/
theorem Pattern.new_string_ne_nil {l : List Char} {g : Pattern}
    (h : Pattern.new l = some g) : g.string ≠ [] := by
  intro hnil
  simp only [Pattern.new] at h
  by_cases hpre : List.isPrefixOf ['*', '*']
      (removeWhitespace (if List.isPrefixOf ['!'] l then l.drop 1 else l)) = true
  · rw [if_pos hpre] at h
    cases h
    have hs : removeWhitespace (if List.isPrefixOf ['!'] l then l.drop 1 else l) = [] := hnil
    rw [hs] at hpre
    exact absurd hpre (by decide)
  · rw [if_neg hpre] at h
    rcases hnorm : removeWhitespace (if List.isPrefixOf ['!'] l then l.drop 1 else l) with
      _ | ⟨c, rest⟩
    · rw [hnorm] at h; cases h
    · rw [hnorm] at h
      cases h
      have hc : (c :: rest : List Char) = [] := hnil
      cases hc

/-- The `Directory`-kind expansion is the base followed by `**` `/` `*`. -/
theorem makeFullPathStr_dir_eq (root d : List Char) (anc : Match) :
    makeFullPathStr root PathKind.Dir anc d
      = expansionBase root anc d ++ ['*', '*', '/', '*'] := by
  cases anc <;> rfl

/-- The `Both`-kind expansion is the base followed by `*`. -/
theorem makeFullPathStr_both_eq (root d : List Char) (anc : Match) :
    makeFullPathStr root PathKind.Both anc d
      = expansionBase root anc d ++ ['*'] := by
  cases anc <;> rfl

/-- The expansion base of a non-empty string is non-empty. -/
theorem expansionBase_ne_nil {root d : List Char} {anc : Match} (hd : d ≠ []) :
    expansionBase root anc d ≠ [] := by
  cases anc with
  | Anywhere => simp [expansionBase, makeAbsoluteAnywhereStr]
  | Relative =>
    simp only [expansionBase, makeAbsoluteStr]
    split
    · exact hd
    · split <;> simp [hd]

/-- If the `Directory`-kind expansion of a blocked entry (its own recorded
anchor) compiles and matches the target, then the code's Pass-2 test — the
same entry expanded with the contributing pattern's own kind, `Dir` or
`Both` — also fires.  For `Dir` the strings coincide; for `Both` the
compiled `Directory` expansion forces the base to end in `/`, the
tokenizations split over that boundary, and the trailing `*` absorbs what
`**/ *` matched. -/
theorem specDirContains_pass2 {root d target : List Char} {g : Pattern}
    (hd : d ≠ []) (hstr : g.string = d)
    (hkind : g.pathKind = PathKind.Dir ∨ g.pathKind = PathKind.Both)
    (hcont : specDirContains root d g.matchType target = true) :
    pass2Check root g d target = some true := by
  unfold specDirContains at hcont
  rcases htk : tokenize (makeFullPathStr root PathKind.Dir g.matchType d) true with _ | toks
  · rw [htk] at hcont; cases hcont
  · rw [htk] at hcont
    have hcont' : globMatchW toks target MatchOptions.new = true := hcont
    rcases hkind with hk | hk
    · unfold pass2Check
      rw [hk, htk]
      show some (globMatchW toks target MatchOptions.new) = some true
      rw [hcont']
    · rw [makeFullPathStr_dir_eq] at htk
      rcases tokenize_dirsuffix htk with ⟨hnil, -⟩ | hlast
      · exact absurd hnil (expansionBase_ne_nil hd)
      · rw [tokenize_append_slash hlast] at htk
        rw [show tokenize ['*', '*', '/', '*'] true = some [Tok.recSep, Tok.star] from rfl]
          at htk
        rcases h1 : tokenize (expansionBase root g.matchType d) true with _ | tb
        · rw [h1] at htk; cases htk
        · rw [h1] at htk
          have htk' : some (tb ++ [Tok.recSep, Tok.star]) = some toks := htk
          injection htk' with htoks
          have hfull : globMatchW (tb ++ [Tok.recSep, Tok.star]) target MatchOptions.new
              = true := by
            rw [htoks]
            exact hcont'
          have hmatch := globW_append_star rfl hfull
          unfold pass2Check
          rw [hk, makeFullPathStr_both_eq, tokenize_append_slash hlast,
            show tokenize ['*'] true = some [Tok.star] from rfl, h1]
          show some (globMatchW (tb ++ [Tok.star]) target MatchOptions.new) = some true
          rw [hmatch]

/-- `ignores_path` leaves the root and case sensitivity unchanged. -/
theorem ignoresPath_snd (g : Gitignore) (glob : Pattern) (target : List Char) :
    (ignoresPath g glob target).2.root = g.root ∧
    (ignoresPath g glob target).2.options.caseSensitive = g.options.caseSensitive := by
  cases htk : tokenize (makeFullPathStr g.root glob.pathKind glob.matchType glob.string) true <;>
    simp [ignoresPath, makeFullPath, htk, setRls]

/-- The Pass-2 scan leaves the root and case sensitivity unchanged. -/
theorem anyIgnoredParent_snd (g : Gitignore) (glob : Pattern) (dirs : List (List Char))
    (target : List Char) :
    (anyIgnoredParent g glob dirs target).2.root = g.root ∧
    (anyIgnoredParent g glob dirs target).2.options.caseSensitive
      = g.options.caseSensitive := by
  induction dirs generalizing g with
  | nil => exact ⟨rfl, rfl⟩
  | cons d0 rest ih =>
    cases htk : tokenize (makeFullPathStr g.root glob.pathKind glob.matchType d0) true with
    | none => simp [anyIgnoredParent, makeFullPath, htk, setRls]
    | some toks =>
      cases hmt : globMatchW toks target MatchOptions.new with
      | true => simp [anyIgnoredParent, makeFullPath, htk, hmt, setRls]
      | false =>
        have hrec := ih (setRls g (mfpFlag glob.matchType))
        simp only [anyIgnoredParent, makeFullPath, htk, hmt]
        simpa [setRls] using hrec

/-- If some listed directory's Pass-2 test fires, the Pass-2 scan cannot
report `false` (it reports `true`, or panics earlier on an uncompilable
expansion). -/
theorem anyIgnoredParent_ne_false {g : Gitignore} {glob : Pattern}
    {dirs : List (List Char)} {target d : List Char} (hd : d ∈ dirs)
    (hcheck : pass2Check g.root glob d target = some true) :
    (anyIgnoredParent g glob dirs target).1 ≠ some false := by
  induction dirs generalizing g with
  | nil => cases hd
  | cons d0 rest ih =>
    cases htk : tokenize (makeFullPathStr g.root glob.pathKind glob.matchType d0) true with
    | none => simp [anyIgnoredParent, makeFullPath, htk]
    | some toks =>
      cases hmt : globMatchW toks target MatchOptions.new with
      | true => simp [anyIgnoredParent, makeFullPath, htk, hmt]
      | false =>
        rcases List.mem_cons.mp hd with rfl | hdrest
        · exfalso
          unfold pass2Check at hcheck
          rw [htk] at hcheck
          have hcheck' : some (globMatchW toks target MatchOptions.new) = some true := hcheck
          injection hcheck' with hcheck''
          rw [hmt] at hcheck''
          cases hcheck''
        · have hrec := @ih (setRls g (mfpFlag glob.matchType)) hdrest hcheck
          simp only [anyIgnoredParent, makeFullPath, htk, hmt]
          exact hrec

/-- If some remaining line records a blocked directory whose Pass-2 test
fires, the per-line loop cannot return `false`. -/
theorem ignoresGo_ne_false :
    ∀ (lines : List (List Char)) (g : Gitignore) (acc : Bool)
      {dirs : List (List Char)} {target : List Char},
      (∃ l ∈ lines, ∃ glob, Pattern.new l = some glob ∧
        ∃ d ∈ dirs, pass2Check g.root glob d target = some true) →
      (ignoresGo dirs target g lines acc).1 ≠ some false := by
  intro lines
  induction lines with
  | nil =>
    intro g acc dirs target hex
    rcases hex with ⟨l, hl, -⟩
    cases hl
  | cons l0 rest ih =>
    intro g acc dirs target hex
    cases hpat : Pattern.new l0 with
    | none => simp [ignoresGo, hpat]
    | some glob0 =>
      rcases hap : anyIgnoredParent g glob0 dirs target with ⟨r, g'⟩
      have hg'root : g'.root = g.root := by
        have := (anyIgnoredParent_snd g glob0 dirs target).1
        rw [hap] at this
        exact this
      cases r with
      | none => simp [ignoresGo, hpat, hap]
      | some rb =>
        cases rb with
        | true => simp [ignoresGo, hpat, hap]
        | false =>
          rcases hip : ignoresPath g' glob0 target with ⟨pr, g''⟩
          have hg''root : g''.root = g'.root := by
            have := (ignoresPath_snd g' glob0 target).1
            rw [hip] at this
            exact this
          cases pr with
          | none => simp [ignoresGo, hpat, hap, hip]
          | some b =>
            simp only [ignoresGo, hpat, hap, hip]
            apply ih g'' b
            rcases hex with ⟨l, hl, glob, hg, d, hdm, hchk⟩
            rcases List.mem_cons.mp hl with rfl | hlrest
            · exfalso
              rw [hpat] at hg
              injection hg with hg
              subst hg
              have := @anyIgnoredParent_ne_false g glob0 dirs target d hdm hchk
              rw [hap] at this
              exact this rfl
            · refine ⟨l, hlrest, glob, hg, d, hdm, ?_⟩
              rw [hg''root, hg'root]
              exact hchk

/-- Pass 1 with anchors: every recorded pair comes from some line whose
pattern has that text and anchor, kind `Dir` or `Both`, and is not negated. -/
theorem findIgnoredDirsAncGo_mem :
    ∀ (rem : List (List Char)) {allLines : List (List Char)}
      {pairs : List (List Char × Match)} {d : List Char} {anc : Match},
      findIgnoredDirsAncGo allLines rem = some pairs → (d, anc) ∈ pairs →
      ∃ l ∈ rem, ∃ g, Pattern.new l = some g ∧ g.string = d ∧ g.matchType = anc ∧
        (g.pathKind = PathKind.Dir ∨ g.pathKind = PathKind.Both) ∧
        g.negated = false := by
  intro rem
  induction rem with
  | nil =>
    intro allLines pairs d anc hp hm
    simp only [findIgnoredDirsAncGo, Option.some.injEq] at hp
    subst hp
    cases hm
  | cons l0 rest ih =>
    intro allLines pairs d anc hp hm
    cases hpat : Pattern.new l0 with
    | none => simp [findIgnoredDirsAncGo, hpat] at hp
    | some glob =>
      cases htail : findIgnoredDirsAncGo allLines rest with
      | none => simp [findIgnoredDirsAncGo, hpat, htail] at hp
      | some tail =>
        have hlift : ∀ x ∈ rest, True := fun _ _ => trivial
        cases hk : glob.pathKind with
        | File =>
          simp only [findIgnoredDirsAncGo, hpat, htail, hk, Option.some.injEq] at hp
          subst hp
          obtain ⟨l, hl, w⟩ := ih htail hm
          exact ⟨l, List.mem_cons_of_mem _ hl, w⟩
        | Dir =>
          simp only [findIgnoredDirsAncGo, hpat, htail, hk, Option.some.injEq] at hp
          by_cases hcond : (!glob.negated &&
              !((Pattern.getParents glob).map negate).any
                (fun p => allLines.contains p)) = true
          · rw [if_pos hcond] at hp
            subst hp
            rcases List.mem_cons.mp hm with heq | hmtail
            · injection heq with h1 h2
              refine ⟨l0, List.mem_cons_self _ _, glob, hpat, h1.symm ▸ rfl, h2.symm ▸ rfl,
                Or.inl hk, ?_⟩
              simp only [Bool.and_eq_true, Bool.not_eq_true'] at hcond
              exact hcond.1
            · obtain ⟨l, hl, w⟩ := ih htail hmtail
              exact ⟨l, List.mem_cons_of_mem _ hl, w⟩
          · rw [if_neg hcond] at hp
            subst hp
            obtain ⟨l, hl, w⟩ := ih htail hm
            exact ⟨l, List.mem_cons_of_mem _ hl, w⟩
        | Both =>
          simp only [findIgnoredDirsAncGo, hpat, htail, hk, Option.some.injEq] at hp
          by_cases hcond : (!glob.negated &&
              !((Pattern.getParents glob).map negate).any
                (fun p => allLines.contains p)) = true
          · rw [if_pos hcond] at hp
            subst hp
            rcases List.mem_cons.mp hm with heq | hmtail
            · injection heq with h1 h2
              refine ⟨l0, List.mem_cons_self _ _, glob, hpat, h1.symm ▸ rfl, h2.symm ▸ rfl,
                Or.inr hk, ?_⟩
              simp only [Bool.and_eq_true, Bool.not_eq_true'] at hcond
              exact hcond.1
            · obtain ⟨l, hl, w⟩ := ih htail hmtail
              exact ⟨l, List.mem_cons_of_mem _ hl, w⟩
          · rw [if_neg hcond] at hp
            subst hp
            obtain ⟨l, hl, w⟩ := ih htail hm
            exact ⟨l, List.mem_cons_of_mem _ hl, w⟩

/-- Pass 1 without anchors is the anchored Pass 1 with the anchors dropped. -/
theorem findIgnoredDirsGo_map_fst :
    ∀ (rem allLines : List (List Char)),
      findIgnoredDirsGo allLines rem
        = (findIgnoredDirsAncGo allLines rem).map (List.map Prod.fst) := by
  intro rem
  induction rem with
  | nil => intro allLines; rfl
  | cons l0 rest ih =>
    intro allLines
    cases hpat : Pattern.new l0 with
    | none => simp [findIgnoredDirsGo, findIgnoredDirsAncGo, hpat]
    | some glob =>
      cases htail : findIgnoredDirsAncGo allLines rest with
      | none =>
        have hGo : findIgnoredDirsGo allLines rest = none := by
          rw [ih allLines, htail]; rfl
        simp [findIgnoredDirsGo, findIgnoredDirsAncGo, hpat, htail, hGo]
      | some tail =>
        have hGo : findIgnoredDirsGo allLines rest = some (tail.map Prod.fst) := by
          rw [ih allLines, htail]; rfl
        cases hk : glob.pathKind <;>
          simp [findIgnoredDirsGo, findIgnoredDirsAncGo, hpat, htail, hGo, hk] <;>
          split <;> simp

/-- Claim C1, amended: if the blocked-directory set of Pass 1 contains an
entry whose `Directory`-kind expansion (under its recorded anchor)
compiles and matches the target, then `evaluate` returns `true` whenever
it returns a verdict at all, regardless of the other rules; evaluation
may instead panic (`none`) when a rule is empty after normalization or
when an expansion consulted along the way fails to compile.  The second
conjunct is the claim's concrete example. -/
theorem c1_directory_block_short_circuits :
    (∀ (rules : List (List Char)) (root target d : List Char) (anc : Match)
        (pairs : List (List Char × Match)) (b : Bool),
      findIgnoredDirsAnc rules = some pairs →
      (d, anc) ∈ pairs →
      specDirContains root d anc target = true →
      evaluate rules root target = some b →
      b = true) ∧
    evaluate [rLibSlash, rNegLibDeepInclude] cRoot tgtLibDeepInclude = some true := by
  constructor
  · intro rules root target d anc pairs b hp hmem hcont heval
    cases b with
    | true => rfl
    | false =>
      exfalso
      unfold evaluate Gitignore.ignores at heval
      cases hdirs : findIgnoredDirs rules with
      | none =>
        rw [hdirs] at heval
        cases heval
      | some dirs =>
        rw [hdirs] at heval
        have heval' : (ignoresGo dirs target ⟨root, MatchOptions.new⟩ rules false).1
            = some false := heval
        refine ignoresGo_ne_false rules ⟨root, MatchOptions.new⟩ false ?_ heval'
        obtain ⟨l, hl, g, hpat, hstr, hanc, hkind, -⟩ :=
          findIgnoredDirsAncGo_mem rules hp hmem
        refine ⟨l, hl, g, hpat, d, ?_, ?_⟩
        · have hmap := findIgnoredDirsGo_map_fst rules rules
          rw [show findIgnoredDirsGo rules rules = findIgnoredDirs rules from rfl, hdirs,
            show findIgnoredDirsAncGo rules rules = findIgnoredDirsAnc rules from rfl, hp]
            at hmap
          injection hmap with hmap
          rw [hmap]
          exact List.mem_map_of_mem Prod.fst hmem
        · have hdne : d ≠ [] := hstr ▸ Pattern.new_string_ne_nil hpat
          exact specDirContains_pass2 hdne hstr hkind (hanc ▸ hcont)
  · rfl

/-- Witness for the amended claim C1: the single rule `lib/` blocks
`/root/lib/a`. -/
theorem c1_witness :
    findIgnoredDirsAnc [rLibSlash] = some [(rLibSlash, Match.Anywhere)] ∧
    specDirContains cRoot rLibSlash Match.Anywhere tgtLibA = true ∧
    evaluate [rLibSlash] cRoot tgtLibA = some true ∧ true = true :=
  ⟨rfl, rfl, rfl,
   c1_directory_block_short_circuits.1 [rLibSlash] cRoot tgtLibA rLibSlash
     Match.Anywhere [(rLibSlash, Match.Anywhere)] true rfl (by simp) rfl rfl⟩

/-- When every listed directory's Pass-2 test reports a clean miss, the
Pass-2 scan reports `false`. -/
theorem anyIgnoredParent_all_false_fst {g : Gitignore} {glob : Pattern}
    {dirs : List (List Char)} {target : List Char}
    (h : ∀ d ∈ dirs, pass2Check g.root glob d target = some false) :
    (anyIgnoredParent g glob dirs target).1 = some false := by
  induction dirs generalizing g with
  | nil => rfl
  | cons d0 rest ih =>
    have h0 := h d0 (List.mem_cons_self _ _)
    unfold pass2Check at h0
    cases htk : tokenize (makeFullPathStr g.root glob.pathKind glob.matchType d0) true with
    | none => rw [htk] at h0; cases h0
    | some toks =>
      rw [htk] at h0
      have h0' : some (globMatchW toks target MatchOptions.new) = some false := h0
      injection h0' with hmt
      simp only [anyIgnoredParent, makeFullPath, htk, hmt]
      exact ih (fun d hd => h d (List.mem_cons_of_mem _ hd))

/-- When no Pass-2 test fires, the per-line loop is exactly the
overwrite scan, panics included. -/
theorem ignoresGo_eq_scan :
    ∀ (lines : List (List Char)) (g : Gitignore) (acc : Bool)
      {dirs : List (List Char)} {target : List Char},
      (∀ l ∈ lines, ∀ glob, Pattern.new l = some glob →
        ∀ d ∈ dirs, pass2Check g.root glob d target = some false) →
      g.options.caseSensitive = true →
      (ignoresGo dirs target g lines acc).1 = specScanOverwrite g.root target lines acc := by
  intro lines
  induction lines with
  | nil => intro g acc dirs target hnb hcs; rfl
  | cons l0 rest ih =>
    intro g acc dirs target hnb hcs
    cases hpat : Pattern.new l0 with
    | none => simp [ignoresGo, specScanOverwrite, hpat]
    | some glob0 =>
      rcases hap : anyIgnoredParent g glob0 dirs target with ⟨r, g'⟩
      have hr : r = some false := by
        have := anyIgnoredParent_all_false_fst
          (fun d hd => hnb l0 (List.mem_cons_self _ _) glob0 hpat d hd)
        rw [hap] at this
        exact this
      subst hr
      have hg' : g'.root = g.root ∧ g'.options.caseSensitive = g.options.caseSensitive := by
        have := anyIgnoredParent_snd g glob0 dirs target
        rw [hap] at this
        exact this
      rcases hip : ignoresPath g' glob0 target with ⟨pr, g''⟩
      have hg'' : g''.root = g'.root ∧ g''.options.caseSensitive
          = g'.options.caseSensitive := by
        have := ignoresPath_snd g' glob0 target
        rw [hip] at this
        exact this
      have hpr : pr = ipVal g.root true glob0 target := by
        have h0 := ignoresPath_fst g' glob0 target
        rw [hip] at h0
        have h1 : pr = ipVal g'.root g'.options.caseSensitive glob0 target := h0
        rw [h1, hg'.1, hg'.2, hcs]
      cases hprv : ipVal g.root true glob0 target with
      | none =>
        rw [hprv] at hpr
        subst hpr
        simp [ignoresGo, hpat, hap, hip, specScanOverwrite, hprv]
      | some b =>
        rw [hprv] at hpr
        subst hpr
        simp only [ignoresGo, hpat, hap, hip, specScanOverwrite, hprv]
        have := ih g'' b
          (fun l hl glob hg d hd => by
            rw [hg''.1, hg'.1]
            exact hnb l (List.mem_cons_of_mem _ hl) glob hg d hd)
          (by rw [hg''.2, hg'.2, hcs])
        rw [hg''.1, hg'.1] at this
        exact this

/-- The overwrite scan's verdict is the last rule's own value (or the
starting accumulator for an empty list). -/
theorem specScanOverwrite_last :
    ∀ (rules : List (List Char)) (acc b : Bool) {root target : List Char},
      specScanOverwrite root target rules acc = some b →
      match rules.getLast? with
      | none => b = acc
      | some l => ∃ g, Pattern.new l = some g ∧ ipVal root true g target = some b := by
  intro rules
  induction rules with
  | nil =>
    intro acc b root target h
    have h' : some acc = some b := h
    injection h' with h'
    exact h'.symm
  | cons l0 rest ih =>
    intro acc b root target h
    cases hpat : Pattern.new l0 with
    | none => simp [specScanOverwrite, hpat] at h
    | some glob =>
      cases hv : ipVal root true glob target with
      | none => simp [specScanOverwrite, hpat, hv] at h
      | some b' =>
        have h' : specScanOverwrite root target rest b' = some b := by
          have := h
          simp only [specScanOverwrite, hpat, hv] at this
          exact this
        have hres := ih b' b h'
        cases rest with
        | nil =>
          have hb : b = b' := hres
          exact ⟨glob, hpat, hb ▸ hv⟩
        | cons r rs =>
          rw [List.getLast?_cons_cons]
          exact hres

/-- Claim C2, amended: when no blocked directory's Pass-2 test fires, the
verdict is not last-*match*-wins but last-*rule*-wins: every rule that
classifies overwrites the running verdict with its own `ignores_path`
value (`!negated` on a match, `negated` on a miss), so `evaluate` equals
the overwrite scan.  The claim's two concrete examples do hold. -/
theorem c2_scan_overwrites_verdict :
    (∀ (rules : List (List Char)) (root target : List Char)
        (dirs : List (List Char)),
      findIgnoredDirs rules = some dirs →
      (∀ l ∈ rules, ∀ glob, Pattern.new l = some glob →
        ∀ d ∈ dirs, pass2Check root glob d target = some false) →
      evaluate rules root target = specScanOverwrite root target rules false) ∧
    evaluate [rStarJs, rNegLibJs] cRoot tgtLibDotJs = some false ∧
    evaluate [rNegLibJs, rStarJs] cRoot tgtLibDotJs = some true := by
  refine ⟨?_, rfl, rfl⟩
  intro rules root target dirs hdirs hnb
  unfold evaluate Gitignore.ignores
  rw [show findIgnoredDirs rules = some dirs from hdirs]
  show (ignoresGo dirs target ⟨root, MatchOptions.new⟩ rules false).1 = _
  exact ignoresGo_eq_scan rules ⟨root, MatchOptions.new⟩ false hnb rfl

/-- Witness for the amended claim C2 at rules `["*.js", "xyz.js"]`. -/
theorem c2_witness :
    findIgnoredDirs [rStarJs, rXyzJs] = some [rXyzJs] ∧
    evaluate [rStarJs, rXyzJs] cRoot tgtLibDotJs
      = specScanOverwrite cRoot tgtLibDotJs [rStarJs, rXyzJs] false :=
  ⟨rfl,
   c2_scan_overwrites_verdict.1 [rStarJs, rXyzJs] cRoot tgtLibDotJs [rXyzJs] rfl
     (by
       intro l hl glob hg d hd
       rcases List.mem_cons.mp hd with rfl | hd'
       · rcases List.mem_cons.mp hl with rfl | hl'
         · rw [show Pattern.new rStarJs
               = some ⟨rStarJs, Match.Anywhere, PathKind.File, false⟩ from rfl] at hg
           injection hg with hg
           subst hg
           rfl
         · rcases List.mem_cons.mp hl' with rfl | hl''
           · rw [show Pattern.new rXyzJs
                 = some ⟨rXyzJs, Match.Anywhere, PathKind.Both, false⟩ from rfl] at hg
             injection hg with hg
             subst hg
             rfl
           · cases hl''
       · cases hd')⟩

/-- Claim C9, amended: when no blocked directory's Pass-2 test fires and
the evaluation returns a verdict (it can instead panic when an expansion
fails to compile), the verdict equals `ignores_path` of the last rule
alone on a fresh default-options instance, and is `false` for the empty
rule list. -/
theorem c9_last_rule_decides {rules : List (List Char)} {root target : List Char}
    {dirs : List (List Char)} {b : Bool}
    (hdirs : findIgnoredDirs rules = some dirs)
    (hnb : ∀ l ∈ rules, ∀ glob, Pattern.new l = some glob →
      ∀ d ∈ dirs, pass2Check root glob d target = some false)
    (heval : evaluate rules root target = some b) :
    match rules.getLast? with
    | none => b = false
    | some l => ∃ g, Pattern.new l = some g ∧
        (ignoresPath ⟨root, MatchOptions.new⟩ g target).1 = some b := by
  have hscan : evaluate rules root target = specScanOverwrite root target rules false := by
    unfold evaluate Gitignore.ignores
    rw [show findIgnoredDirs rules = some dirs from hdirs]
    show (ignoresGo dirs target ⟨root, MatchOptions.new⟩ rules false).1 = _
    exact ignoresGo_eq_scan rules ⟨root, MatchOptions.new⟩ false hnb rfl
  rw [hscan] at heval
  have := specScanOverwrite_last rules false b heval
  cases hlast : rules.getLast? with
  | none => rw [hlast] at this; exact this
  | some l =>
    rw [hlast] at this
    obtain ⟨g, hg, hv⟩ := this
    exact ⟨g, hg, by rw [ignoresPath_fst]; exact hv⟩

/-- Witness for the amended claim C9 at the single rule `*.js`. -/
theorem c9_witness :
    findIgnoredDirs [rStarJs] = some [] ∧
    evaluate [rStarJs] cRoot tgtLibDotJs = some true ∧
    (∃ g, Pattern.new rStarJs = some g ∧
      (ignoresPath ⟨cRoot, MatchOptions.new⟩ g tgtLibDotJs).1 = some true) :=
  ⟨rfl, rfl,
   @c9_last_rule_decides [rStarJs] cRoot tgtLibDotJs [] true rfl
     (by intro l hl glob hg d hd; cases hd) rfl⟩

/-- The Pass-2 scan's verdict depends only on the instance root (the
matching inside it uses default options). -/
theorem anyIgnoredParent_fst_congr :
    ∀ (dirs : List (List Char)) (g₁ g₂ : Gitignore) (glob : Pattern) (target : List Char),
      g₁.root = g₂.root →
      (anyIgnoredParent g₁ glob dirs target).1
        = (anyIgnoredParent g₂ glob dirs target).1 := by
  intro dirs
  induction dirs with
  | nil => intro g₁ g₂ glob target hr; rfl
  | cons d0 rest ih =>
    intro g₁ g₂ glob target hr
    cases htk : tokenize (makeFullPathStr g₂.root glob.pathKind glob.matchType d0) true with
    | none =>
      have htk1 : tokenize (makeFullPathStr g₁.root glob.pathKind glob.matchType d0) true
          = none := by rw [hr]; exact htk
      simp [anyIgnoredParent, makeFullPath, htk, htk1]
    | some toks =>
      have htk1 : tokenize (makeFullPathStr g₁.root glob.pathKind glob.matchType d0) true
          = some toks := by rw [hr]; exact htk
      cases hmt : globMatchW toks target MatchOptions.new with
      | true => simp [anyIgnoredParent, makeFullPath, htk, htk1, hmt]
      | false =>
        simp only [anyIgnoredParent, makeFullPath, htk, htk1, hmt]
        exact ih (setRls g₁ (mfpFlag glob.matchType)) (setRls g₂ (mfpFlag glob.matchType))
          glob target (by simpa [setRls] using hr)

/-- The per-line loop's verdict depends only on the instance root and case
sensitivity, not on the separator-strictness flag the previous call left
behind. -/
theorem ignoresGo_fst_congr :
    ∀ (lines : List (List Char)) (g₁ g₂ : Gitignore) (acc : Bool)
      {dirs : List (List Char)} {target : List Char},
      g₁.root = g₂.root →
      g₁.options.caseSensitive = g₂.options.caseSensitive →
      (ignoresGo dirs target g₁ lines acc).1 = (ignoresGo dirs target g₂ lines acc).1 := by
  intro lines
  induction lines with
  | nil => intro g₁ g₂ acc dirs target hr hc; rfl
  | cons l0 rest ih =>
    intro g₁ g₂ acc dirs target hr hc
    cases hpat : Pattern.new l0 with
    | none => simp [ignoresGo, hpat]
    | some glob0 =>
      rcases hap1 : anyIgnoredParent g₁ glob0 dirs target with ⟨r₁, g₁'⟩
      rcases hap2 : anyIgnoredParent g₂ glob0 dirs target with ⟨r₂, g₂'⟩
      have hre : r₁ = r₂ := by
        have := anyIgnoredParent_fst_congr dirs g₁ g₂ glob0 target hr
        rw [hap1, hap2] at this
        exact this
      subst hre
      have hs1 : g₁'.root = g₁.root ∧ g₁'.options.caseSensitive
          = g₁.options.caseSensitive := by
        have := anyIgnoredParent_snd g₁ glob0 dirs target
        rw [hap1] at this
        exact this
      have hs2 : g₂'.root = g₂.root ∧ g₂'.options.caseSensitive
          = g₂.options.caseSensitive := by
        have := anyIgnoredParent_snd g₂ glob0 dirs target
        rw [hap2] at this
        exact this
      cases r₁ with
      | none => simp [ignoresGo, hpat, hap1, hap2]
      | some rb =>
        cases rb with
        | true => simp [ignoresGo, hpat, hap1, hap2]
        | false =>
          rcases hip1 : ignoresPath g₁' glob0 target with ⟨p₁, g₁''⟩
          rcases hip2 : ignoresPath g₂' glob0 target with ⟨p₂, g₂''⟩
          have hpe : p₁ = p₂ := by
            have h1 := ignoresPath_fst g₁' glob0 target
            have h2 := ignoresPath_fst g₂' glob0 target
            rw [hip1] at h1
            rw [hip2] at h2
            have h1' : p₁ = ipVal g₁'.root g₁'.options.caseSensitive glob0 target := h1
            have h2' : p₂ = ipVal g₂'.root g₂'.options.caseSensitive glob0 target := h2
            rw [h1', h2', hs1.1, hs1.2, hs2.1, hs2.2, hr, hc]
          subst hpe
          have ht1 : g₁''.root = g₁'.root ∧ g₁''.options.caseSensitive
              = g₁'.options.caseSensitive := by
            have := ignoresPath_snd g₁' glob0 target
            rw [hip1] at this
            exact this
          have ht2 : g₂''.root = g₂'.root ∧ g₂''.options.caseSensitive
              = g₂'.options.caseSensitive := by
            have := ignoresPath_snd g₂' glob0 target
            rw [hip2] at this
            exact this
          cases p₁ with
          | none => simp [ignoresGo, hpat, hap1, hap2, hip1, hip2]
          | some b =>
            simp only [ignoresGo, hpat, hap1, hap2, hip1, hip2]
            exact ih g₁'' g₂'' b
              (by rw [ht1.1, ht2.1, hs1.1, hs2.1, hr])
              (by rw [ht1.2, ht2.2, hs1.2, hs2.2, hc])

/-- The per-line loop leaves the root and case sensitivity unchanged. -/
theorem ignoresGo_snd :
    ∀ (lines : List (List Char)) (g : Gitignore) (acc : Bool)
      {dirs : List (List Char)} {target : List Char},
      (ignoresGo dirs target g lines acc).2.root = g.root ∧
      (ignoresGo dirs target g lines acc).2.options.caseSensitive
        = g.options.caseSensitive := by
  intro lines
  induction lines with
  | nil => intro g acc dirs target; exact ⟨rfl, rfl⟩
  | cons l0 rest ih =>
    intro g acc dirs target
    cases hpat : Pattern.new l0 with
    | none => simp [ignoresGo, hpat]
    | some glob0 =>
      rcases hap : anyIgnoredParent g glob0 dirs target with ⟨r, g'⟩
      have hs : g'.root = g.root ∧ g'.options.caseSensitive = g.options.caseSensitive := by
        have := anyIgnoredParent_snd g glob0 dirs target
        rw [hap] at this
        exact this
      cases r with
      | none => simpa [ignoresGo, hpat, hap] using hs
      | some rb =>
        cases rb with
        | true => simpa [ignoresGo, hpat, hap] using hs
        | false =>
          rcases hip : ignoresPath g' glob0 target with ⟨pr, g''⟩
          have ht : g''.root = g'.root ∧ g''.options.caseSensitive
              = g'.options.caseSensitive := by
            have := ignoresPath_snd g' glob0 target
            rw [hip] at this
            exact this
          cases pr with
          | none =>
            simp only [ignoresGo, hpat, hap, hip]
            exact ⟨ht.1.trans hs.1, ht.2.trans hs.2⟩
          | some b =>
            simp only [ignoresGo, hpat, hap, hip]
            have := @ih g'' b dirs target
            exact ⟨this.1.trans (ht.1.trans hs.1), this.2.trans (ht.2.trans hs.2)⟩

/-- `Gitignore::ignores` leaves the root and case sensitivity unchanged. -/
theorem ignores_snd (g : Gitignore) (lines : List (List Char)) (target : List Char) :
    (Gitignore.ignores g lines target).2.root = g.root ∧
    (Gitignore.ignores g lines target).2.options.caseSensitive
      = g.options.caseSensitive := by
  cases hdirs : findIgnoredDirs lines with
  | none => simp [Gitignore.ignores, hdirs]
  | some dirs =>
    simp only [Gitignore.ignores, hdirs]
    exact ignoresGo_snd lines g false

/-- `Gitignore::ignores`' verdict depends only on the instance root and
case sensitivity. -/
theorem ignores_fst_congr {g₁ g₂ : Gitignore} (lines : List (List Char))
    (target : List Char) (hr : g₁.root = g₂.root)
    (hc : g₁.options.caseSensitive = g₂.options.caseSensitive) :
    (Gitignore.ignores g₁ lines target).1 = (Gitignore.ignores g₂ lines target).1 := by
  cases hdirs : findIgnoredDirs lines with
  | none => simp [Gitignore.ignores, hdirs]
  | some dirs =>
    simp only [Gitignore.ignores, hdirs]
    exact ignoresGo_fst_congr lines g₁ g₂ false hr hc

/-- Claim C8: evaluation is deterministic and free of observable shared
state.  The only state a call mutates is the separator-strictness flag in
the instance options, and every later match overwrites that flag before
reading the options, so a call after any earlier call (with any
arguments) returns exactly what it would have returned on the untouched
instance. -/
theorem c8_no_observable_state_mutation :
    ∀ (g : Gitignore) (lines0 : List (List Char)) (t0 : List Char)
      (lines : List (List Char)) (t : List Char),
      (Gitignore.ignores (Gitignore.ignores g lines0 t0).2 lines t).1
        = (Gitignore.ignores g lines t).1 := by
  intro g lines0 t0 lines t
  exact ignores_fst_congr lines t (ignores_snd g lines0 t0).1 (ignores_snd g lines0 t0).2

/-- Taking at most `length − 1` elements commutes with `dropLast`. -/
theorem dropLast_take_eq {α : Type} (l : List α) (k : Nat) (hk : k ≤ l.length - 1) :
    l.dropLast.take k = l.take k := by
  rw [List.dropLast_eq_take, List.take_take]
  congr 1
  omega

/-- Members of the ancestor-variant list of a non-empty join are non-empty. -/
theorem mem_ancVariants_ne_nil {j x : List Char} (hj : j ≠ []) (hx : x ∈ ancVariants j) :
    x ≠ [] := by
  unfold ancVariants at hx
  split at hx
  · rcases List.mem_singleton.mp hx with rfl
    exact hj
  · rcases List.mem_cons.mp hx with rfl | hx'
    · simp
    · rcases List.mem_singleton.mp hx' with rfl
      exact hj

/-- The `get_parents` loop produces exactly the ancestor variants of the
joins of the first `k` segments, `1 ≤ k ≤ segments − 1`. -/
theorem getParentsGo_mem :
    ∀ (n : Nat) (segs : List (List Char)), segs.length ≤ n →
      ∀ x, x ∈ getParentsGo n segs ↔
        ∃ k, 1 ≤ k ∧ k ≤ segs.length - 1 ∧
          x ∈ ancVariants (List.intercalate ['/'] (segs.take k) ++ ['/']) := by
  intro n
  induction n with
  | zero =>
    intro segs hm x
    constructor
    · intro hx; cases hx
    · rintro ⟨k, hk1, hk2, -⟩
      omega
  | succ n ih =>
    intro segs hm x
    by_cases hlen : segs.length ≤ 1
    · constructor
      · intro hx
        simp only [getParentsGo, if_pos hlen] at hx
        cases hx
      · rintro ⟨k, hk1, hk2, -⟩
        omega
    · simp only [getParentsGo, if_neg hlen, List.mem_append]
      rw [ih segs.dropLast (by rw [List.length_dropLast]; omega) x]
      constructor
      · rintro (hx | ⟨k, hk1, hk2, hx⟩)
        · refine ⟨segs.length - 1, by omega, le_rfl, ?_⟩
          rwa [List.dropLast_eq_take] at hx
        · rw [List.length_dropLast] at hk2
          refine ⟨k, hk1, by omega, ?_⟩
          rwa [dropLast_take_eq segs k (by omega)] at hx
      · rintro ⟨k, hk1, hk2, hx⟩
        by_cases hk : k = segs.length - 1
        · left
          subst hk
          rwa [List.dropLast_eq_take]
        · right
          refine ⟨k, hk1, by rw [List.length_dropLast]; omega, ?_⟩
          rwa [dropLast_take_eq segs k (by omega)]

/-- Membership in the amended negated-ancestor forms, unfolded. -/
theorem specAmendedForms_mem {s x : List Char} :
    x ∈ specAmendedForms s ↔
      ∃ k, 1 ≤ k ∧ k ≤ (splitOnSlash s).length - 1 ∧
        ∃ y ∈ ancVariants (List.intercalate ['/'] ((splitOnSlash s).take k) ++ ['/']),
          x = negate y := by
  unfold specAmendedForms
  simp only [List.mem_map, List.mem_flatten, List.mem_range]
  constructor
  · rintro ⟨y, ⟨grp, ⟨i, hi, rfl⟩, hy⟩, rfl⟩
    exact ⟨i + 1, by omega, by omega, y, hy, rfl⟩
  · rintro ⟨k, hk1, hk2, y, hy, rfl⟩
    have hkk : k - 1 + 1 = k := by omega
    exact ⟨y, ⟨ancVariants (List.intercalate ['/'] ((splitOnSlash s).take k) ++ ['/']),
      ⟨k - 1, by omega, by rw [hkk]⟩, hy⟩, rfl⟩

/-- The negated parents the code computes coincide, as a set, with the
amended claim's forms. -/
theorem getParents_map_negate_mem {g : Pattern} {x : List Char} :
    x ∈ (Pattern.getParents g).map negate ↔ x ∈ specAmendedForms g.string := by
  rw [specAmendedForms_mem]
  unfold Pattern.getParents
  simp only [List.mem_map, List.mem_filter]
  constructor
  · rintro ⟨y, ⟨hy, -⟩, rfl⟩
    obtain ⟨k, hk1, hk2, hv⟩ :=
      (getParentsGo_mem (splitOnSlash g.string).length (splitOnSlash g.string) le_rfl y).mp hy
    exact ⟨k, hk1, hk2, y, hv, rfl⟩
  · rintro ⟨k, hk1, hk2, y, hv, rfl⟩
    refine ⟨y, ⟨?_, ?_⟩, rfl⟩
    · exact (getParentsGo_mem (splitOnSlash g.string).length (splitOnSlash g.string)
        le_rfl y).mpr ⟨k, hk1, hk2, hv⟩
    · have hne : y ≠ [] := mem_ancVariants_ne_nil (by simp) hv
      simp only [Bool.not_eq_true', List.isEmpty_eq_false]
      exact hne

/-- The code's no-negated-parents test, in terms of the amended forms. -/
theorem negParents_cond_iff {rules : List (List Char)} {g : Pattern} :
    (((Pattern.getParents g).map negate).any (fun p => rules.contains p) = false) ↔
      ∀ f ∈ specAmendedForms g.string, rules.contains f = false := by
  rw [List.any_eq_false]
  constructor
  · intro h f hf
    have := h f (getParents_map_negate_mem.mpr hf)
    simpa using this
  · intro h x hx
    have := h x (getParents_map_negate_mem.mp hx)
    simpa using this

/-- Membership in Pass 1's blocked set, characterized line by line. -/
theorem findIgnoredDirsGo_mem_iff :
    ∀ (rem : List (List Char)) {allLines dirs : List (List Char)},
      findIgnoredDirsGo allLines rem = some dirs →
      ∀ d, d ∈ dirs ↔ ∃ l ∈ rem, ∃ g, Pattern.new l = some g ∧ g.string = d ∧
        (g.pathKind = PathKind.Dir ∨ g.pathKind = PathKind.Both) ∧ g.negated = false ∧
        ((Pattern.getParents g).map negate).any (fun p => allLines.contains p) = false := by
  intro rem
  induction rem with
  | nil =>
    intro allLines dirs hp d
    have hp' : some ([] : List (List Char)) = some dirs := hp
    injection hp' with hp'
    subst hp'
    constructor
    · intro hx; cases hx
    · rintro ⟨l, hl, -⟩; cases hl
  | cons l0 rest ih =>
    intro allLines dirs hp d
    cases hpat : Pattern.new l0 with
    | none => simp [findIgnoredDirsGo, hpat] at hp
    | some glob =>
      cases htail : findIgnoredDirsGo allLines rest with
      | none => simp [findIgnoredDirsGo, hpat, htail] at hp
      | some tail =>
        have htl := ih htail
        cases hk : glob.pathKind with
        | File =>
          simp only [findIgnoredDirsGo, hpat, htail, hk, Option.some.injEq] at hp
          subst hp
          rw [htl d]
          constructor
          · rintro ⟨l, hl, w⟩
            exact ⟨l, List.mem_cons_of_mem _ hl, w⟩
          · rintro ⟨l, hl, g, hg, hw⟩
            rcases List.mem_cons.mp hl with rfl | hl'
            · rw [hpat] at hg
              injection hg with hg
              subst hg
              rcases hw.2.1 with hx | hx <;> rw [hk] at hx <;> cases hx
            · exact ⟨l, hl', g, hg, hw⟩
        | Dir =>
          simp only [findIgnoredDirsGo, hpat, htail, hk, Option.some.injEq] at hp
          by_cases hcond : (!glob.negated &&
              !((Pattern.getParents glob).map negate).any
                (fun p => allLines.contains p)) = true
          · rw [if_pos hcond] at hp
            subst hp
            simp only [Bool.and_eq_true, Bool.not_eq_true'] at hcond
            constructor
            · intro hx
              rcases List.mem_cons.mp hx with rfl | hx'
              · exact ⟨l0, List.mem_cons_self _ _, glob, hpat, rfl, Or.inl hk,
                  hcond.1, hcond.2⟩
              · obtain ⟨l, hl, w⟩ := (htl d).mp hx'
                exact ⟨l, List.mem_cons_of_mem _ hl, w⟩
            · rintro ⟨l, hl, g, hg, hstr, hkind, hneg, hany⟩
              rcases List.mem_cons.mp hl with rfl | hl'
              · rw [hpat] at hg
                injection hg with hg
                subst hg
                exact hstr ▸ List.mem_cons_self _ _
              · exact List.mem_cons_of_mem _ ((htl d).mpr ⟨l, hl', g, hg, hstr, hkind,
                  hneg, hany⟩)
          · rw [if_neg hcond] at hp
            subst hp
            rw [htl d]
            constructor
            · rintro ⟨l, hl, w⟩
              exact ⟨l, List.mem_cons_of_mem _ hl, w⟩
            · rintro ⟨l, hl, g, hg, hstr, hkind, hneg, hany⟩
              rcases List.mem_cons.mp hl with rfl | hl'
              · exfalso
                rw [hpat] at hg
                injection hg with hg
                subst hg
                exact hcond (by rw [hneg, hany]; rfl)
              · exact ⟨l, hl', g, hg, hstr, hkind, hneg, hany⟩
        | Both =>
          simp only [findIgnoredDirsGo, hpat, htail, hk, Option.some.injEq] at hp
          by_cases hcond : (!glob.negated &&
              !((Pattern.getParents glob).map negate).any
                (fun p => allLines.contains p)) = true
          · rw [if_pos hcond] at hp
            subst hp
            simp only [Bool.and_eq_true, Bool.not_eq_true'] at hcond
            constructor
            · intro hx
              rcases List.mem_cons.mp hx with rfl | hx'
              · exact ⟨l0, List.mem_cons_self _ _, glob, hpat, rfl, Or.inr hk,
                  hcond.1, hcond.2⟩
              · obtain ⟨l, hl, w⟩ := (htl d).mp hx'
                exact ⟨l, List.mem_cons_of_mem _ hl, w⟩
            · rintro ⟨l, hl, g, hg, hstr, hkind, hneg, hany⟩
              rcases List.mem_cons.mp hl with rfl | hl'
              · rw [hpat] at hg
                injection hg with hg
                subst hg
                exact hstr ▸ List.mem_cons_self _ _
              · exact List.mem_cons_of_mem _ ((htl d).mpr ⟨l, hl', g, hg, hstr, hkind,
                  hneg, hany⟩)
          · rw [if_neg hcond] at hp
            subst hp
            rw [htl d]
            constructor
            · rintro ⟨l, hl, w⟩
              exact ⟨l, List.mem_cons_of_mem _ hl, w⟩
            · rintro ⟨l, hl, g, hg, hstr, hkind, hneg, hany⟩
              rcases List.mem_cons.mp hl with rfl | hl'
              · exfalso
                rw [hpat] at hg
                injection hg with hg
                subst hg
                exact hcond (by rw [hneg, hany]; rfl)
              · exact ⟨l, hl', g, hg, hstr, hkind, hneg, hany⟩

/-- Claim C3, amended: a rule's directory is in the blocked set iff its
pattern has kind `Directory` or `Both`, is not negated, and none of its
negated proper-ancestor forms — the joins of the first `k` of its
`/`-split segments (`1 ≤ k ≤ segments − 1`), each ending in `/`, taken as
written when already starting with `/` and otherwise both with and
without a leading `/`, with `!` prepended — occurs verbatim in the rule
list.  For a trailing-`/` pattern this includes its own directory form;
for a slash-free pattern there are no forms at all.  The second conjunct
is the claim's concrete example. -/
theorem c3_blocked_set_characterization :
    (∀ (rules dirs : List (List Char)) (d : List Char),
      findIgnoredDirs rules = some dirs →
      (d ∈ dirs ↔ ∃ l ∈ rules, ∃ g, Pattern.new l = some g ∧ g.string = d ∧
        (g.pathKind = PathKind.Dir ∨ g.pathKind = PathKind.Both) ∧ g.negated = false ∧
        ∀ f ∈ specAmendedForms d, rules.contains f = false)) ∧
    evaluate [rLibSlash, rNegLibSlash] cRoot tgtLibX = some false := by
  refine ⟨?_, rfl⟩
  intro rules dirs d hdirs
  rw [findIgnoredDirsGo_mem_iff rules hdirs d]
  constructor
  · rintro ⟨l, hl, g, hg, hstr, hkind, hneg, hany⟩
    refine ⟨l, hl, g, hg, hstr, hkind, hneg, ?_⟩
    rw [← hstr]
    exact negParents_cond_iff.mp hany
  · rintro ⟨l, hl, g, hg, hstr, hkind, hneg, hforms⟩
    refine ⟨l, hl, g, hg, hstr, hkind, hneg, ?_⟩
    exact negParents_cond_iff.mpr (hstr ▸ hforms)

/-- Witness for the amended claim C3 at the single rule `lib/`. -/
theorem c3_witness :
    findIgnoredDirs [rLibSlash] = some [rLibSlash] ∧
    (rLibSlash ∈ [rLibSlash] ↔ ∃ l ∈ [rLibSlash], ∃ g, Pattern.new l = some g ∧
      g.string = rLibSlash ∧
      (g.pathKind = PathKind.Dir ∨ g.pathKind = PathKind.Both) ∧ g.negated = false ∧
      ∀ f ∈ specAmendedForms rLibSlash, [rLibSlash].contains f = false) :=
  ⟨rfl, c3_blocked_set_characterization.1 [rLibSlash] [rLibSlash] rLibSlash rfl⟩

/-- Claim C9 counterexample: with rules `["*.j[s", "*.js"]` (no blocked
directories, so the claim's hypothesis holds vacuously) the evaluation
panics on the first rule's uncompilable expansion (`none`), while
`ignores_path` on the last rule alone returns `some true` — the two
results differ. -/
theorem c9_counterexample :
    findIgnoredDirs [rStarJBracketS, rStarJs] = some [] ∧
    evaluate [rStarJBracketS, rStarJs] cRoot tgtLibDotJs = none ∧
    (Pattern.new rStarJs).map
      (fun p => (ignoresPath ⟨cRoot, MatchOptions.new⟩ p tgtLibDotJs).1) =
      some (some true) := by decide

end Gitignored
